import Mathlib

/-!
Verification of the MPMC ring buffer in `brain.go` (repository `mcmp`).

The Go code is embedded shallowly and sequentially: every operation is a
state transformer on a `RingBuffer` value.  The retry loops of the Go code
are resolved under sequential execution (a compare-and-swap always succeeds
on the first attempt because no other thread moves the cursors), so each
loop either exits on its first decisive branch or reloads exactly the same
values forever.  An operation returns `none` when the Go code would never
return: either an infinite retry/wait loop, or an out-of-bounds slice index
(a Go panic).

Machine integers: Go `uint64` values are embedded as `Nat` reduced modulo
`U64 = 2 ^ 64` at every operation that can wrap, and the Go casts
`int64(x)` used for the signed lap comparison are embedded by `toI`, with
`wrapS` giving the wrap-around of the signed 64-bit subtraction.

Go slices owned by the buffer (`cycleState`, `ids`, `prices`, `qtys`,
always indexed by `cursor & mask < capacity`) are embedded as total
functions from the offset.  Caller-supplied slices of the batch operations
are embedded as lists, and indexing them out of range returns `none`
(the Go panic).  The `float64` prices are only ever copied, never computed
with, so their values are embedded as rationals.
-/

namespace MCMP

/-- Number of values of a 64-bit machine word. -/
def U64 : Nat := 2 ^ 64

/-- The sign boundary of `int64`: naturals below it are their own cast. -/
def I64 : Nat := 2 ^ 63

/-- Embedding of the Go cast `int64(x)` for an `x : uint64` given as a
natural number below `U64`. -/
def toI (x : Nat) : Int := if x < I64 then (x : Int) else (x : Int) - (U64 : Int)

/-- Wrap an exact integer to the value computed by 64-bit signed
arithmetic. -/
def wrapS (z : Int) : Int := (z + (I64 : Int)) % (U64 : Int) - (I64 : Int)

/-- The ring buffer state of `brain.go`: capacity and mask, the two
cursors, the per-slot cycle counters, and the three parallel payload
arrays. -/
structure RingBuffer where
  capacity : Nat
  mask : Nat
  writeIndex : Nat
  readIndex : Nat
  cycleState : Nat → Nat
  ids : Nat → Nat
  prices : Nat → Rat
  qtys : Nat → Nat

/-- Embedding of `Newbuffer`: no validation of the capacity is performed;
`mask` is the uint64 value `capacity - 1` (wrapping when `capacity = 0`),
the cursors start at zero, `cycleState[i] = i` on the allocated range and
the payload arrays are zero initialised. -/
def Newbuffer (capacity : Nat) : RingBuffer where
  capacity := capacity
  mask := (capacity + U64 - 1) % U64
  writeIndex := 0
  readIndex := 0
  cycleState := fun i => if i < capacity then i else 0
  ids := fun _ => 0
  prices := fun _ => 0
  qtys := fun _ => 0

/-- Embedding of `Enqueue`.  Sequentially the retry loop runs its first
iteration with a successful CAS when the signed difference is zero,
returns `false` when it is negative, and spins forever (embedded as
`none`) when it is positive. -/
def Enqueue (rb : RingBuffer) (id : Nat) (price : Rat) (qty : Nat) :
    Option (RingBuffer × Bool) :=
  let head := rb.writeIndex
  let offset := head &&& rb.mask
  let cycleVal := rb.cycleState offset
  let diff := wrapS (toI cycleVal - toI head)
  if diff = 0 then
    some ({ rb with
              writeIndex := (head + 1) % U64
              ids := Function.update rb.ids offset id
              prices := Function.update rb.prices offset price
              qtys := Function.update rb.qtys offset qty
              cycleState := Function.update rb.cycleState offset ((head + 1) % U64) },
          true)
  else if diff < 0 then
    some (rb, false)
  else
    none

/-- Embedding of `Dequeue`.  On success the record read from the slot is
returned together with the new state; `some (rb, none)` is the `false`
return of the Go code on an empty buffer. -/
def Dequeue (rb : RingBuffer) : Option (RingBuffer × Option (Nat × Rat × Nat)) :=
  let tail := rb.readIndex
  let offset := tail &&& rb.mask
  let cycleVal := rb.cycleState offset
  let diff := wrapS (toI cycleVal - toI ((tail + 1) % U64))
  if diff = 0 then
    some ({ rb with
              readIndex := (tail + 1) % U64
              cycleState := Function.update rb.cycleState offset ((tail + rb.capacity) % U64) },
          some (rb.ids offset, rb.prices offset, rb.qtys offset))
  else if diff < 0 then
    some (rb, none)
  else
    none

/-- The payload-writing loop of `EnqueueBatch`: for `fuel` steps starting
at index `i`, copy `ids[i]`, `prices[i]`, `qtys[i]` into the slot at
offset `(head + i) & mask` and publish its cycle value `head + i + 1`.
Indexing one of the caller lists out of range is the Go panic, embedded
as `none`. -/
def enqWriteFrom (head : Nat) (ids : List Nat) (prices : List Rat) (qtys : List Nat) :
    Nat → Nat → RingBuffer → Option RingBuffer
  | _, 0, rb => some rb
  | i, fuel + 1, rb =>
    match ids[i]?, prices[i]?, qtys[i]? with
    | some a, some p, some q =>
      let idx := ((head + i) % U64) &&& rb.mask
      enqWriteFrom head ids prices qtys (i + 1) fuel
        { rb with
            ids := Function.update rb.ids idx a
            prices := Function.update rb.prices idx p
            qtys := Function.update rb.qtys idx q
            cycleState := Function.update rb.cycleState idx ((head + i + 1) % U64) }
    | _, _, _ => none

/-- Embedding of `EnqueueBatch`.  The transfer count is the length of the
`ids` argument.  Sequentially: a negative head-slot difference returns
`0`; a zero difference runs the endpoint check at cursor
`head + count - 1` (uint64 arithmetic, so this wraps when `count = 0` and
`head = 0`) and then the CAS succeeds and the payload loop runs; a
positive difference retries forever (`none`). -/
def EnqueueBatch (rb : RingBuffer) (ids : List Nat) (prices : List Rat) (qtys : List Nat) :
    Option (RingBuffer × Nat) :=
  let count := ids.length
  let head := rb.writeIndex
  let offset := head &&& rb.mask
  let cycleVal := rb.cycleState offset
  let diff := wrapS (toI cycleVal - toI head)
  if diff < 0 then
    some (rb, 0)
  else if diff = 0 then
    let tailOffset := ((head + count + U64 - 1) % U64) &&& rb.mask
    let tailCycle := rb.cycleState tailOffset
    if wrapS (toI tailCycle - toI ((head + count + U64 - 1) % U64)) < 0 then
      some (rb, 0)
    else
      match enqWriteFrom head ids prices qtys 0 count
              { rb with writeIndex := (head + count) % U64 } with
      | some rb2 => some (rb2, count)
      | none => none
  else
    none

/-- The reading loop of `DequeueBatch`: for `fuel` steps starting at `i`,
wait until the slot at cursor `tail + i` is published (sequentially a
publication that has not happened never will, embedded as `none`), copy
the slot payload into position `i` of the caller lists, and release the
slot with cycle value `tail + i + capacity`.  Indexing `prices` or `qtys`
out of range is the Go panic (`none`); `ids` is always long enough since
the loop bound is its length. -/
def deqReadFrom (tail capacity mask : Nat) :
    Nat → Nat → RingBuffer → List Nat → List Rat → List Nat →
    Option (RingBuffer × List Nat × List Rat × List Nat)
  | _, 0, rb, ids, prices, qtys => some (rb, ids, prices, qtys)
  | i, fuel + 1, rb, ids, prices, qtys =>
    let currIndex := (tail + i) % U64
    let currOffset := currIndex &&& mask
    if rb.cycleState currOffset = (currIndex + 1) % U64 then
      if i < prices.length then
        if i < qtys.length then
          deqReadFrom tail capacity mask (i + 1) fuel
            { rb with
                cycleState :=
                  Function.update rb.cycleState currOffset ((currIndex + capacity) % U64) }
            (ids.set i (rb.ids currOffset))
            (prices.set i (rb.prices currOffset))
            (qtys.set i (rb.qtys currOffset))
        else none
      else none
    else none

/-- Embedding of `DequeueBatch`.  The transfer limit is the length of the
caller `ids` buffer; a zero limit returns immediately.  Sequentially the
head-slot gate only filters a negative difference, the endpoint check
compares the cycle of the slot at cursor `tail + limit - 1` against
`tail + limit`, and then the CAS succeeds and the reading loop runs. -/
def DequeueBatch (rb : RingBuffer) (ids : List Nat) (prices : List Rat) (qtys : List Nat) :
    Option (RingBuffer × List Nat × List Rat × List Nat × Nat) :=
  let limit := ids.length
  if limit = 0 then some (rb, ids, prices, qtys, 0)
  else
    let tail := rb.readIndex
    let offset := tail &&& rb.mask
    let cycleVal := rb.cycleState offset
    if wrapS (toI cycleVal - toI ((tail + 1) % U64)) < 0 then
      some (rb, ids, prices, qtys, 0)
    else
      let tailOffset := ((tail + limit + U64 - 1) % U64) &&& rb.mask
      let tailCycle := rb.cycleState tailOffset
      if wrapS (toI tailCycle - toI ((tail + limit) % U64)) < 0 then
        some (rb, ids, prices, qtys, 0)
      else
        match deqReadFrom tail rb.capacity rb.mask 0 limit
                { rb with readIndex := (tail + limit) % U64 } ids prices qtys with
        | some (rb2, ids2, prices2, qtys2) => some (rb2, ids2, prices2, qtys2, limit)
        | none => none

/-! ## Arithmetic facts about the 64-bit embedding -/

lemma U64_eq : U64 = 2 * I64 := by norm_num [U64, I64]

lemma I64_pos : 0 < I64 := by norm_num [I64]

lemma toI_of_lt {x : Nat} (h : x < I64) : toI x = (x : Int) := if_pos h

lemma mod_U64_of_lt {x : Nat} (h : x < U64) : x % U64 = x := Nat.mod_eq_of_lt h

lemma lt_U64_of_lt_I64 {x : Nat} (h : x < I64) : x < U64 := by
  have := U64_eq; have := I64_pos; omega

lemma wrapS_of_small {z : Int} (h1 : -(I64 : Int) ≤ z) (h2 : z < (I64 : Int)) :
    wrapS z = z := by
  unfold wrapS
  have hU : (U64 : Int) = 2 * (I64 : Int) := by exact_mod_cast congrArg (Nat.cast (R := Int)) U64_eq
  have h0 : 0 ≤ z + (I64 : Int) := by linarith
  have h3 : z + (I64 : Int) < (U64 : Int) := by rw [hU]; linarith
  rw [Int.emod_eq_of_lt h0 h3]; ring

lemma wrapS_zero : wrapS 0 = 0 := by
  apply wrapS_of_small <;> simp [I64_pos]

lemma wrapS_sub_of_lt {a b : Nat} (ha : a < I64) (hb : b < I64) :
    wrapS (toI a - toI b) = (a : Int) - (b : Int) := by
  rw [toI_of_lt ha, toI_of_lt hb]
  apply wrapS_of_small
  · have : (0 : Int) ≤ (a : Int) := Int.natCast_nonneg a
    have : (b : Int) < (I64 : Int) := by exact_mod_cast hb
    linarith
  · have : (0 : Int) ≤ (b : Int) := Int.natCast_nonneg b
    have : (a : Int) < (I64 : Int) := by exact_mod_cast ha
    linarith

/-- The offset computation of the Go code: masking with `capacity - 1` is
reduction modulo the capacity when the capacity is a power of two. -/
lemma and_mask_eq_mod (k x : Nat) : x &&& (2 ^ k - 1) = x % 2 ^ k :=
  Nat.and_pow_two_sub_one_eq_mod x k

lemma mod_U64_mod_pow {k x : Nat} (hk : k ≤ 64) : x % U64 % 2 ^ k = x % 2 ^ k :=
  Nat.mod_mod_of_dvd x (pow_dvd_pow 2 hk)

/-! ## The quiescent cycle value of a slot

Sequentially, after any number of completed operations, the cycle counter
of every slot is a function of the two cursors alone.  `nextAt cap t off`
is the smallest cursor value that is at least `t` and lands on offset
`off`; the slot holds that value when it is empty, and its successor when
it is filled (the cursor of the record it holds is below the head). -/

def nextAt (cap t off : Nat) : Nat := t + (off + cap - t % cap) % cap

def seqCycle (cap t h off : Nat) : Nat :=
  if nextAt cap t off < h then nextAt cap t off + 1 else nextAt cap t off

lemma eq_of_mod_eq_of_lt {cap a b : Nat} (hab : a % cap = b % cap)
    (h1 : a ≤ b) (h2 : b < a + cap) : a = b := by
  have hd : cap ∣ b - a := (Nat.modEq_iff_dvd' h1).mp hab
  have := Nat.eq_zero_of_dvd_of_lt hd
  omega

lemma nextAt_ge (cap t off : Nat) : t ≤ nextAt cap t off := Nat.le_add_right _ _

lemma nextAt_lt (hcap : 0 < cap) (t off : Nat) : nextAt cap t off < t + cap :=
  Nat.add_lt_add_left (Nat.mod_lt _ hcap) t

lemma nextAt_mod (hcap : 0 < cap) {off : Nat} (hoff : off < cap) (t : Nat) :
    nextAt cap t off % cap = off := by
  unfold nextAt
  have hr : t % cap < cap := Nat.mod_lt _ hcap
  have he2 : t % cap + (off + cap - t % cap) = off + cap := by omega
  rw [Nat.add_mod_mod, ← Nat.mod_add_mod, he2, Nat.add_mod_right]
  exact Nat.mod_eq_of_lt hoff

lemma nextAt_unique (hcap : 0 < cap) {t c off : Nat} (h1 : t ≤ c) (h2 : c < t + cap)
    (h3 : c % cap = off) : nextAt cap t off = c := by
  have hoff : off < cap := h3 ▸ Nat.mod_lt _ hcap
  have hm := nextAt_mod hcap hoff t
  rcases Nat.le_total (nextAt cap t off) c with h | h
  · exact eq_of_mod_eq_of_lt (hm.trans h3.symm) h
      (lt_of_lt_of_le h2 (Nat.add_le_add_right (nextAt_ge cap t off) cap))
  · exact (eq_of_mod_eq_of_lt (h3.trans hm.symm) h
      (lt_of_lt_of_le (nextAt_lt hcap t off) (Nat.add_le_add_right h1 cap))).symm

lemma seqCycle_of_window (hcap : 0 < cap) {t v : Nat} (h1 : t ≤ v) (h2 : v < t + cap)
    (h : Nat) : seqCycle cap t h (v % cap) = if v < h then v + 1 else v := by
  unfold seqCycle
  rw [nextAt_unique hcap h1 h2 rfl]

lemma seqCycle_le (hcap : 0 < cap) (t h off : Nat) :
    seqCycle cap t h off ≤ t + cap := by
  unfold seqCycle
  have := nextAt_lt hcap t off
  split <;> omega

lemma seqCycle_ge (cap t h off : Nat) : t ≤ seqCycle cap t h off := by
  unfold seqCycle
  have := nextAt_ge cap t off
  split <;> omega

/-! ## Sequential invariants

`InvA` is the quiescent-state invariant of a buffer of power-of-two
capacity at least two: mask consistency, cursor order, bounded occupancy,
and the cycle counters determined by the cursors through `seqCycle`.
`InvB` is the (degenerate) invariant of a capacity-one buffer, whose
cycle counter always equals the head cursor.  `Room rb n` states that an
operation of size `n` stays well inside the signed 64-bit range; it
embeds the modelling assumption of the specification that cursor
wrap-around does not occur within the lifetime of the buffer, together
with the Go guarantee that a slice length fits in a signed 64-bit
integer. -/

structure InvA (rb : RingBuffer) : Prop where
  mask_eq : rb.mask = rb.capacity - 1
  t_le_h : rb.readIndex ≤ rb.writeIndex
  occ : rb.writeIndex ≤ rb.readIndex + rb.capacity
  cyc : ∀ off, off < rb.capacity →
    rb.cycleState off = seqCycle rb.capacity rb.readIndex rb.writeIndex off

structure InvB (rb : RingBuffer) : Prop where
  cap1 : rb.capacity = 1
  mask_eq : rb.mask = 0
  t_le_h : rb.readIndex ≤ rb.writeIndex
  cyc : rb.cycleState 0 = rb.writeIndex

def Inv (k : Nat) (rb : RingBuffer) : Prop :=
  rb.capacity = 2 ^ k ∧ (k = 0 → InvB rb) ∧ (k ≠ 0 → InvA rb)

def Room (rb : RingBuffer) (n : Nat) : Prop :=
  rb.writeIndex + n + rb.capacity < I64 ∧ rb.readIndex + n + rb.capacity < I64

/-- The states reachable from a freshly constructed buffer by completed
operations.  Every step carries the `Room` side condition: the
specification explicitly assumes that the 64-bit cursors never wrap
within the lifetime of the buffer, and a Go slice length is always below
`2 ^ 63`. -/
inductive Reach (cap : Nat) : RingBuffer → Prop where
  | init : Reach cap (Newbuffer cap)
  | enq : ∀ rb rb' id price qty b, Reach cap rb → Room rb 1 →
      Enqueue rb id price qty = some (rb', b) → Reach cap rb'
  | deq : ∀ rb rb' r, Reach cap rb → Room rb 1 →
      Dequeue rb = some (rb', r) → Reach cap rb'
  | enqBatch : ∀ rb rb' ids prices qtys n, Reach cap rb → Room rb ids.length →
      EnqueueBatch rb ids prices qtys = some (rb', n) → Reach cap rb'
  | deqBatch : ∀ rb rb' ids prices qtys ids2 prices2 qtys2 n, Reach cap rb →
      Room rb ids.length →
      DequeueBatch rb ids prices qtys = some (rb', ids2, prices2, qtys2, n) →
      Reach cap rb'

/-! ## Behaviour of the single-record operations on invariant states -/

lemma cap_pos {k : Nat} {rb : RingBuffer} (hc : rb.capacity = 2 ^ k) :
    0 < rb.capacity := by rw [hc]; positivity

lemma two_le_cap {k : Nat} {rb : RingBuffer} (hc : rb.capacity = 2 ^ k) (hk : k ≠ 0) :
    2 ≤ rb.capacity := by
  rw [hc]
  calc 2 = 2 ^ 1 := rfl
  _ ≤ 2 ^ k := Nat.pow_le_pow_right (by omega) (by omega)

lemma offset_eq {k : Nat} {rb : RingBuffer} (hmask : rb.mask = rb.capacity - 1)
    (hc : rb.capacity = 2 ^ k) (x : Nat) : x &&& rb.mask = x % rb.capacity := by
  rw [hmask, hc, and_mask_eq_mod]

/-- On a non-full buffer of power-of-two capacity, `Enqueue` succeeds:
it advances the head by one, writes the three payload fields at offset
`head % capacity` and publishes the cycle value `head + 1`. -/
lemma Enqueue_succ_A {k : Nat} (rb : RingBuffer) (hA : InvA rb) (hc : rb.capacity = 2 ^ k)
    (hroom : Room rb 1) (hlt : rb.writeIndex < rb.readIndex + rb.capacity)
    (id : Nat) (price : Rat) (qty : Nat) :
    Enqueue rb id price qty = some
      ({ rb with
           writeIndex := rb.writeIndex + 1
           ids := Function.update rb.ids (rb.writeIndex % rb.capacity) id
           prices := Function.update rb.prices (rb.writeIndex % rb.capacity) price
           qtys := Function.update rb.qtys (rb.writeIndex % rb.capacity) qty
           cycleState := Function.update rb.cycleState (rb.writeIndex % rb.capacity)
             (rb.writeIndex + 1) }, true) := by
  have hcap0 : 0 < rb.capacity := cap_pos hc
  have hH : rb.writeIndex < I64 := by have := hroom.1; omega
  have hH1 : rb.writeIndex + 1 < I64 := by have := hroom.1; omega
  have hcyc : rb.cycleState (rb.writeIndex % rb.capacity) = rb.writeIndex := by
    rw [hA.cyc _ (Nat.mod_lt _ hcap0), seqCycle_of_window hcap0 hA.t_le_h hlt]
    simp
  simp only [Enqueue, offset_eq hA.mask_eq hc, hcyc, sub_self, wrapS_zero,
    mod_U64_of_lt (lt_U64_of_lt_I64 hH1), if_pos]

/-- On a full buffer of power-of-two capacity at least two, `Enqueue`
returns `false` and leaves the state unchanged. -/
lemma Enqueue_full_A {k : Nat} (rb : RingBuffer) (hA : InvA rb) (hc : rb.capacity = 2 ^ k)
    (hk : k ≠ 0) (hroom : Room rb 1) (hfull : rb.writeIndex = rb.readIndex + rb.capacity)
    (id : Nat) (price : Rat) (qty : Nat) :
    Enqueue rb id price qty = some (rb, false) := by
  have hcap0 : 0 < rb.capacity := cap_pos hc
  have hcap2 : 2 ≤ rb.capacity := two_le_cap hc hk
  have hH : rb.writeIndex < I64 := by have := hroom.1; omega
  have hT : rb.readIndex + 1 < I64 := by have := hroom.2; omega
  have hoff : rb.writeIndex % rb.capacity = rb.readIndex % rb.capacity := by
    rw [hfull, Nat.add_mod_right]
  have hcyc : rb.cycleState (rb.writeIndex % rb.capacity) = rb.readIndex + 1 := by
    rw [hA.cyc _ (Nat.mod_lt _ hcap0), hoff,
      seqCycle_of_window hcap0 (le_refl rb.readIndex) (by omega)]
    rw [if_pos (by omega)]
  have hd : wrapS (toI (rb.readIndex + 1) - toI rb.writeIndex) =
      (rb.readIndex : Int) + 1 - rb.writeIndex := by
    have := wrapS_sub_of_lt hT hH
    omega
  simp only [Enqueue, offset_eq hA.mask_eq hc, hcyc, hd]
  rw [if_neg (by omega), if_pos (by omega)]

/-- On a capacity-one buffer, `Enqueue` always succeeds (this is the
degenerate behaviour refuting bounded occupancy at capacity one). -/
lemma Enqueue_B (rb : RingBuffer) (hB : InvB rb) (hroom : Room rb 1)
    (id : Nat) (price : Rat) (qty : Nat) :
    Enqueue rb id price qty = some
      ({ rb with
           writeIndex := rb.writeIndex + 1
           ids := Function.update rb.ids 0 id
           prices := Function.update rb.prices 0 price
           qtys := Function.update rb.qtys 0 qty
           cycleState := Function.update rb.cycleState 0 (rb.writeIndex + 1) }, true) := by
  have hH1 : rb.writeIndex + 1 < I64 := by have := hroom.1; have := hB.cap1; omega
  simp only [Enqueue, hB.mask_eq, Nat.and_zero, hB.cyc, sub_self, wrapS_zero,
    mod_U64_of_lt (lt_U64_of_lt_I64 hH1), if_pos]

/-- On a non-empty buffer of power-of-two capacity, `Dequeue` succeeds:
it advances the tail by one, returns the payload of the slot at offset
`tail % capacity` and releases the slot with cycle value
`tail + capacity`. -/
lemma Dequeue_succ_A {k : Nat} (rb : RingBuffer) (hA : InvA rb) (hc : rb.capacity = 2 ^ k)
    (hroom : Room rb 1) (hlt : rb.readIndex < rb.writeIndex) :
    Dequeue rb = some
      ({ rb with
           readIndex := rb.readIndex + 1
           cycleState := Function.update rb.cycleState (rb.readIndex % rb.capacity)
             (rb.readIndex + rb.capacity) },
       some (rb.ids (rb.readIndex % rb.capacity), rb.prices (rb.readIndex % rb.capacity),
             rb.qtys (rb.readIndex % rb.capacity))) := by
  have hcap0 : 0 < rb.capacity := cap_pos hc
  have hT1 : rb.readIndex + 1 < I64 := by have := hroom.2; omega
  have hTC : rb.readIndex + rb.capacity < I64 := by have := hroom.2; omega
  have hcyc : rb.cycleState (rb.readIndex % rb.capacity) = rb.readIndex + 1 := by
    rw [hA.cyc _ (Nat.mod_lt _ hcap0),
      seqCycle_of_window hcap0 (le_refl rb.readIndex) (by omega)]
    rw [if_pos hlt]
  simp only [Dequeue, offset_eq hA.mask_eq hc, hcyc,
    mod_U64_of_lt (lt_U64_of_lt_I64 hT1), mod_U64_of_lt (lt_U64_of_lt_I64 hTC),
    sub_self, wrapS_zero, if_pos]

/-- On an empty buffer of power-of-two capacity, `Dequeue` reports
emptiness and leaves the state unchanged. -/
lemma Dequeue_empty_A {k : Nat} (rb : RingBuffer) (hA : InvA rb) (hc : rb.capacity = 2 ^ k)
    (hroom : Room rb 1) (hempty : rb.readIndex = rb.writeIndex) :
    Dequeue rb = some (rb, none) := by
  have hcap0 : 0 < rb.capacity := cap_pos hc
  have hT : rb.readIndex < I64 := by have := hroom.2; omega
  have hT1 : rb.readIndex + 1 < I64 := by have := hroom.2; omega
  have hcyc : rb.cycleState (rb.readIndex % rb.capacity) = rb.readIndex := by
    rw [hA.cyc _ (Nat.mod_lt _ hcap0),
      seqCycle_of_window hcap0 (le_refl rb.readIndex) (by omega)]
    rw [if_neg (by omega)]
  have hd : wrapS (toI rb.readIndex - toI (rb.readIndex + 1)) = -1 := by
    have := wrapS_sub_of_lt hT hT1
    omega
  simp only [Dequeue, offset_eq hA.mask_eq hc,
    mod_U64_of_lt (lt_U64_of_lt_I64 hT1), hcyc, hd]
  rw [if_neg (by omega), if_pos (by omega)]

/-- On a capacity-one buffer holding exactly one record, `Dequeue`
succeeds. -/
lemma Dequeue_succ_B (rb : RingBuffer) (hB : InvB rb) (hroom : Room rb 1)
    (hone : rb.writeIndex = rb.readIndex + 1) :
    Dequeue rb = some
      ({ rb with
           readIndex := rb.readIndex + 1
           cycleState := Function.update rb.cycleState 0 (rb.readIndex + rb.capacity) },
       some (rb.ids 0, rb.prices 0, rb.qtys 0)) := by
  have hT1 : rb.readIndex + 1 < I64 := by have := hroom.2; have := hB.cap1; omega
  have hTC : rb.readIndex + rb.capacity < I64 := by have := hroom.2; omega
  simp only [Dequeue, hB.mask_eq, Nat.and_zero, hB.cyc, hone,
    mod_U64_of_lt (lt_U64_of_lt_I64 hT1), mod_U64_of_lt (lt_U64_of_lt_I64 hTC),
    sub_self, wrapS_zero, if_pos]

/-- On an empty capacity-one buffer, `Dequeue` reports emptiness. -/
lemma Dequeue_empty_B (rb : RingBuffer) (hB : InvB rb) (hroom : Room rb 1)
    (hempty : rb.readIndex = rb.writeIndex) :
    Dequeue rb = some (rb, none) := by
  have hT : rb.readIndex < I64 := by have := hroom.2; omega
  have hT1 : rb.readIndex + 1 < I64 := by have := hroom.2; omega
  have hd : wrapS (toI rb.writeIndex - toI (rb.readIndex + 1)) = -1 := by
    rw [← hempty]
    have := wrapS_sub_of_lt hT hT1
    omega
  simp only [Dequeue, hB.mask_eq, Nat.and_zero, hB.cyc,
    mod_U64_of_lt (lt_U64_of_lt_I64 hT1), hd]
  rw [if_neg (by omega), if_pos (by omega)]

/-- On a capacity-one buffer holding two or more records (which is
reachable), `Dequeue` retries forever. -/
lemma Dequeue_stuck_B (rb : RingBuffer) (hB : InvB rb) (hroom : Room rb 1)
    (htwo : rb.readIndex + 2 ≤ rb.writeIndex) :
    Dequeue rb = none := by
  have hH : rb.writeIndex < I64 := by have := hroom.1; omega
  have hT1 : rb.readIndex + 1 < I64 := by have := hroom.2; have := hB.cap1; omega
  have hd : wrapS (toI rb.writeIndex - toI (rb.readIndex + 1)) =
      (rb.writeIndex : Int) - (rb.readIndex + 1) := by
    have := wrapS_sub_of_lt hH hT1
    omega
  simp only [Dequeue, hB.mask_eq, Nat.and_zero, hB.cyc,
    mod_U64_of_lt (lt_U64_of_lt_I64 hT1), hd]
  rw [if_neg (by omega), if_neg (by omega)]

/-! ## Invariant preservation for the single-record operations -/

/-- Publishing the head slot preserves the cycle characterisation when
the head advances by one. -/
lemma seqCycle_bump_head {cap t h : Nat} (hcap : 0 < cap) (hth : t ≤ h)
    (hlt : h < t + cap) {f : Nat → Nat}
    (hf : ∀ off, off < cap → f off = seqCycle cap t h off) :
    ∀ off, off < cap →
      Function.update f (h % cap) (h + 1) off = seqCycle cap t (h + 1) off := by
  intro off hoff
  by_cases heq : off = h % cap
  · subst heq
    rw [Function.update_same, seqCycle_of_window hcap hth (by omega)]
    rw [if_pos (by omega)]
  · rw [Function.update_noteq heq, hf off hoff]
    have hne : nextAt cap t off ≠ h := by
      intro hcontra
      exact heq (by rw [← hcontra, nextAt_mod hcap hoff])
    unfold seqCycle
    split_ifs <;> omega

/-- Releasing the tail slot preserves the cycle characterisation when
the tail advances by one. -/
lemma seqCycle_bump_tail {cap t h : Nat} (hcap : 0 < cap) (hth : t < h)
    (hocc : h ≤ t + cap) {f : Nat → Nat}
    (hf : ∀ off, off < cap → f off = seqCycle cap t h off) :
    ∀ off, off < cap →
      Function.update f (t % cap) (t + cap) off = seqCycle cap (t + 1) h off := by
  intro off hoff
  by_cases heq : off = t % cap
  · subst heq
    rw [Function.update_same]
    unfold seqCycle
    have h4 : nextAt cap (t + 1) (t % cap) = t + cap :=
      nextAt_unique hcap (by omega) (by omega) (Nat.add_mod_right t cap)
    rw [h4, if_neg (by omega)]
  · rw [Function.update_noteq heq, hf off hoff]
    have hc1 := nextAt_ge cap t off
    have hc2 := nextAt_lt hcap t off
    have hc3 := nextAt_mod hcap hoff t
    have hne : nextAt cap t off ≠ t := by
      intro hcontra
      exact heq (by rw [← hcontra, hc3])
    have h4 : nextAt cap (t + 1) off = nextAt cap t off :=
      nextAt_unique hcap (by omega) (by omega) hc3
    unfold seqCycle
    rw [h4]

lemma Inv_Enqueue {k : Nat} {rb rb' : RingBuffer} {id qty : Nat} {price : Rat} {b : Bool}
    (hI : Inv k rb) (hroom : Room rb 1)
    (hstep : Enqueue rb id price qty = some (rb', b)) : Inv k rb' := by
  obtain ⟨hcap, hB, hA⟩ := hI
  by_cases hk : k = 0
  · have hB := hB hk
    rw [Enqueue_B rb hB hroom id price qty] at hstep
    simp only [Option.some.injEq, Prod.mk.injEq] at hstep
    obtain ⟨hrb, -⟩ := hstep
    subst hrb
    refine ⟨hcap, fun _ => ?_, fun hk2 => absurd hk hk2⟩
    have ht := hB.t_le_h
    exact { cap1 := hB.cap1, mask_eq := hB.mask_eq,
            t_le_h := show rb.readIndex ≤ rb.writeIndex + 1 by omega,
            cyc := Function.update_same 0 (rb.writeIndex + 1) rb.cycleState }
  · have hA := hA hk
    have hocc := hA.occ
    have hth := hA.t_le_h
    rcases Nat.lt_or_ge rb.writeIndex (rb.readIndex + rb.capacity) with hlt | hge
    · rw [Enqueue_succ_A rb hA hcap hroom hlt id price qty] at hstep
      simp only [Option.some.injEq, Prod.mk.injEq] at hstep
      obtain ⟨hrb, -⟩ := hstep
      subst hrb
      refine ⟨hcap, fun h0 => absurd h0 hk, fun _ => ?_⟩
      exact { mask_eq := hA.mask_eq,
              t_le_h := show rb.readIndex ≤ rb.writeIndex + 1 by omega,
              occ := show rb.writeIndex + 1 ≤ rb.readIndex + rb.capacity by omega,
              cyc := seqCycle_bump_head (cap_pos hcap) hth hlt hA.cyc }
    · have hfull : rb.writeIndex = rb.readIndex + rb.capacity := le_antisymm hocc hge
      rw [Enqueue_full_A rb hA hcap hk hroom hfull id price qty] at hstep
      simp only [Option.some.injEq, Prod.mk.injEq] at hstep
      obtain ⟨hrb, -⟩ := hstep
      subst hrb
      exact ⟨hcap, fun h0 => absurd h0 hk, fun _ => hA⟩

lemma Inv_Dequeue {k : Nat} {rb rb' : RingBuffer} {r : Option (Nat × Rat × Nat)}
    (hI : Inv k rb) (hroom : Room rb 1)
    (hstep : Dequeue rb = some (rb', r)) : Inv k rb' := by
  obtain ⟨hcap, hB, hA⟩ := hI
  by_cases hk : k = 0
  · have hB := hB hk
    have ht := hB.t_le_h
    rcases Nat.lt_trichotomy rb.writeIndex (rb.readIndex + 1) with hlt | heq | hgt
    · have hempty : rb.readIndex = rb.writeIndex := by omega
      rw [Dequeue_empty_B rb hB hroom hempty] at hstep
      simp only [Option.some.injEq, Prod.mk.injEq] at hstep
      obtain ⟨hrb, -⟩ := hstep
      subst hrb
      exact ⟨hcap, fun _ => hB, fun hk2 => absurd hk hk2⟩
    · rw [Dequeue_succ_B rb hB hroom heq] at hstep
      simp only [Option.some.injEq, Prod.mk.injEq] at hstep
      obtain ⟨hrb, -⟩ := hstep
      subst hrb
      refine ⟨hcap, fun _ => ?_, fun hk2 => absurd hk hk2⟩
      have hc1 := hB.cap1
      exact { cap1 := hB.cap1, mask_eq := hB.mask_eq,
              t_le_h := show rb.readIndex + 1 ≤ rb.writeIndex by omega,
              cyc := by
                show Function.update rb.cycleState 0 (rb.readIndex + rb.capacity) 0 =
                  rb.writeIndex
                rw [Function.update_same]
                omega }
    · rw [Dequeue_stuck_B rb hB hroom (by omega)] at hstep
      exact absurd hstep (by simp)
  · have hA := hA hk
    have hocc := hA.occ
    have hth := hA.t_le_h
    rcases Nat.lt_or_ge rb.readIndex rb.writeIndex with hlt | hge
    · rw [Dequeue_succ_A rb hA hcap hroom hlt] at hstep
      simp only [Option.some.injEq, Prod.mk.injEq] at hstep
      obtain ⟨hrb, -⟩ := hstep
      subst hrb
      refine ⟨hcap, fun h0 => absurd h0 hk, fun _ => ?_⟩
      exact { mask_eq := hA.mask_eq,
              t_le_h := show rb.readIndex + 1 ≤ rb.writeIndex from hlt,
              occ := show rb.writeIndex ≤ rb.readIndex + 1 + rb.capacity by omega,
              cyc := seqCycle_bump_tail (cap_pos hcap) hlt hocc hA.cyc }
    · have hempty : rb.readIndex = rb.writeIndex := le_antisymm hth hge
      rw [Dequeue_empty_A rb hA hcap hroom hempty] at hstep
      simp only [Option.some.injEq, Prod.mk.injEq] at hstep
      obtain ⟨hrb, -⟩ := hstep
      subst hrb
      exact ⟨hcap, fun h0 => absurd h0 hk, fun _ => hA⟩

/-! ## The payload loops of the batch operations -/

lemma enqWriteFrom_some_bounds {head : Nat} {ids : List Nat} {prices : List Rat}
    {qtys : List Nat} : ∀ (fuel i : Nat) (rb rb' : RingBuffer),
    enqWriteFrom head ids prices qtys i fuel rb = some rb' →
    ∀ j, i ≤ j → j < i + fuel →
      j < ids.length ∧ j < prices.length ∧ j < qtys.length := by
  intro fuel
  induction fuel with
  | zero => intro i rb rb' _ j h1 h2; omega
  | succ fuel ih =>
    intro i rb rb' hstep j h1 h2
    unfold enqWriteFrom at hstep
    split at hstep
    · rename_i a p q hid hpr hqt
      have hi1 : i < ids.length := (List.getElem?_eq_some_iff.mp hid).1
      have hi2 : i < prices.length := (List.getElem?_eq_some_iff.mp hpr).1
      have hi3 : i < qtys.length := (List.getElem?_eq_some_iff.mp hqt).1
      rcases Nat.eq_or_lt_of_le h1 with heq | hgt
      · omega
      · exact ih (i + 1) _ rb' hstep j hgt (by omega)
    · exact absurd hstep (by simp)

lemma enqWriteFrom_spec {k : Nat} (hk64 : k ≤ 64) (head : Nat) (ids : List Nat)
    (prices : List Rat) (qtys : List Nat) :
    ∀ (fuel i : Nat) (rb : RingBuffer), rb.mask = 2 ^ k - 1 →
    (∀ j, i ≤ j → j < i + fuel → j < ids.length ∧ j < prices.length ∧ j < qtys.length) →
    (∀ j1 j2, i ≤ j1 → j1 < j2 → j2 < i + fuel →
      (head + j1) % 2 ^ k ≠ (head + j2) % 2 ^ k) →
    ∃ rb', enqWriteFrom head ids prices qtys i fuel rb = some rb' ∧
      rb'.capacity = rb.capacity ∧ rb'.mask = rb.mask ∧
      rb'.writeIndex = rb.writeIndex ∧ rb'.readIndex = rb.readIndex ∧
      (∀ off, (∀ j, i ≤ j → j < i + fuel → off ≠ (head + j) % 2 ^ k) →
        rb'.cycleState off = rb.cycleState off ∧ rb'.ids off = rb.ids off ∧
        rb'.prices off = rb.prices off ∧ rb'.qtys off = rb.qtys off) ∧
      (∀ j, i ≤ j → j < i + fuel →
        rb'.cycleState ((head + j) % 2 ^ k) = (head + j + 1) % U64 ∧
        rb'.ids ((head + j) % 2 ^ k) = ids.getD j 0 ∧
        rb'.prices ((head + j) % 2 ^ k) = prices.getD j 0 ∧
        rb'.qtys ((head + j) % 2 ^ k) = qtys.getD j 0) := by
  intro fuel
  induction fuel with
  | zero =>
    intro i rb hmask hb hdist
    exact ⟨rb, rfl, rfl, rfl, rfl, rfl, fun off _ => ⟨rfl, rfl, rfl, rfl⟩,
      fun j h1 h2 => absurd h2 (by omega)⟩
  | succ fuel ih =>
    intro i rb hmask hb hdist
    obtain ⟨hbi, hbp, hbq⟩ := hb i (le_refl i) (by omega)
    have hidx : ((head + i) % U64) &&& rb.mask = (head + i) % 2 ^ k := by
      rw [hmask, and_mask_eq_mod, mod_U64_mod_pow hk64]
    have hstep : enqWriteFrom head ids prices qtys i (fuel + 1) rb =
        enqWriteFrom head ids prices qtys (i + 1) fuel
          { rb with
              ids := Function.update rb.ids ((head + i) % 2 ^ k) (ids.getD i 0)
              prices := Function.update rb.prices ((head + i) % 2 ^ k) (prices.getD i 0)
              qtys := Function.update rb.qtys ((head + i) % 2 ^ k) (qtys.getD i 0)
              cycleState := Function.update rb.cycleState ((head + i) % 2 ^ k)
                ((head + i + 1) % U64) } := by
      simp only [enqWriteFrom, List.getElem?_eq_getElem hbi,
        List.getElem?_eq_getElem hbp, List.getElem?_eq_getElem hbq, hidx,
        List.getD_eq_getElem?_getD, Option.getD_some]
    obtain ⟨rb', hrun, hcap, hmsk, hwi, hri, hunch, hwr⟩ :=
      ih (i + 1)
        ({ rb with
             ids := Function.update rb.ids ((head + i) % 2 ^ k) (ids.getD i 0)
             prices := Function.update rb.prices ((head + i) % 2 ^ k) (prices.getD i 0)
             qtys := Function.update rb.qtys ((head + i) % 2 ^ k) (qtys.getD i 0)
             cycleState := Function.update rb.cycleState ((head + i) % 2 ^ k)
               ((head + i + 1) % U64) })
        hmask (fun j h1 h2 => hb j (by omega) (by omega))
        (fun j1 j2 h1 h2 h3 => hdist j1 j2 (by omega) h2 (by omega))
    refine ⟨rb', hstep.trans hrun, hcap, hmsk, hwi, hri, ?_, ?_⟩
    · intro off hoff
      have hne : off ≠ (head + i) % 2 ^ k := hoff i (le_refl i) (by omega)
      obtain ⟨h1, h2, h3, h4⟩ := hunch off (fun j hj1 hj2 => hoff j (by omega) (by omega))
      exact ⟨h1.trans (Function.update_noteq hne _ _),
        h2.trans (Function.update_noteq hne _ _),
        h3.trans (Function.update_noteq hne _ _),
        h4.trans (Function.update_noteq hne _ _)⟩
    · intro j h1 h2
      rcases Nat.eq_or_lt_of_le h1 with heq | hgt
      · subst heq
        have hoff : ∀ j2, i + 1 ≤ j2 → j2 < i + 1 + fuel →
            (head + i) % 2 ^ k ≠ (head + j2) % 2 ^ k :=
          fun j2 hj1 hj2 => hdist i j2 (le_refl i) (by omega) (by omega)
        obtain ⟨h1, h2, h3, h4⟩ := hunch _ hoff
        exact ⟨h1.trans (Function.update_same _ _ _),
          h2.trans (Function.update_same _ _ _),
          h3.trans (Function.update_same _ _ _),
          h4.trans (Function.update_same _ _ _)⟩
      · exact hwr j hgt (by omega)

lemma deqReadFrom_some_bounds {tail capv mask : Nat} :
    ∀ (fuel i : Nat) (rb : RingBuffer) (ids : List Nat) (prices : List Rat)
      (qtys : List Nat) (out : RingBuffer × List Nat × List Rat × List Nat),
    deqReadFrom tail capv mask i fuel rb ids prices qtys = some out →
    ∀ j, i ≤ j → j < i + fuel → j < prices.length ∧ j < qtys.length := by
  intro fuel
  induction fuel with
  | zero => intro i rb ids prices qtys out _ j h1 h2; omega
  | succ fuel ih =>
    intro i rb ids prices qtys out hstep j h1 h2
    simp only [deqReadFrom] at hstep
    split at hstep
    · split at hstep
      · split at hstep
        · rename_i hchk hp hq
          rcases Nat.eq_or_lt_of_le h1 with heq | hgt
          · omega
          · have := ih (i + 1) _ _ _ _ out hstep j hgt (by omega)
            rwa [List.length_set, List.length_set] at this
        · exact absurd hstep (by simp)
      · exact absurd hstep (by simp)
    · exact absurd hstep (by simp)

lemma deqReadFrom_spec {k : Nat} (hk64 : k ≤ 64) (tail capv : Nat) :
    ∀ (fuel i : Nat) (rb : RingBuffer) (ids : List Nat) (prices : List Rat)
      (qtys : List Nat),
    (∀ j, i ≤ j → j < i + fuel →
      rb.cycleState ((tail + j) % 2 ^ k) = (tail + j + 1) % U64) →
    (∀ j1 j2, i ≤ j1 → j1 < j2 → j2 < i + fuel →
      (tail + j1) % 2 ^ k ≠ (tail + j2) % 2 ^ k) →
    (∀ j, i ≤ j → j < i + fuel → j < ids.length ∧ j < prices.length ∧ j < qtys.length) →
    ∃ rb' ids2 prices2 qtys2,
      deqReadFrom tail capv (2 ^ k - 1) i fuel rb ids prices qtys =
        some (rb', ids2, prices2, qtys2) ∧
      rb'.capacity = rb.capacity ∧ rb'.mask = rb.mask ∧
      rb'.writeIndex = rb.writeIndex ∧ rb'.readIndex = rb.readIndex ∧
      rb'.ids = rb.ids ∧ rb'.prices = rb.prices ∧ rb'.qtys = rb.qtys ∧
      (∀ off, (∀ j, i ≤ j → j < i + fuel → off ≠ (tail + j) % 2 ^ k) →
        rb'.cycleState off = rb.cycleState off) ∧
      (∀ j, i ≤ j → j < i + fuel →
        rb'.cycleState ((tail + j) % 2 ^ k) = (tail + j + capv) % U64) ∧
      ids2.length = ids.length ∧ prices2.length = prices.length ∧
      qtys2.length = qtys.length ∧
      (∀ j, i ≤ j → j < i + fuel →
        ids2[j]? = some (rb.ids ((tail + j) % 2 ^ k)) ∧
        prices2[j]? = some (rb.prices ((tail + j) % 2 ^ k)) ∧
        qtys2[j]? = some (rb.qtys ((tail + j) % 2 ^ k))) ∧
      (∀ j, j < i ∨ i + fuel ≤ j →
        ids2[j]? = ids[j]? ∧ prices2[j]? = prices[j]? ∧ qtys2[j]? = qtys[j]?) := by
  intro fuel
  induction fuel with
  | zero =>
    intro i rb ids prices qtys hchk hdist hb
    exact ⟨rb, ids, prices, qtys, rfl, rfl, rfl, rfl, rfl, rfl, rfl, rfl,
      fun off _ => rfl, fun j h1 h2 => absurd h2 (by omega), rfl, rfl, rfl,
      fun j h1 h2 => absurd h2 (by omega), fun j _ => ⟨rfl, rfl, rfl⟩⟩
  | succ fuel ih =>
    intro i rb ids prices qtys hchk hdist hb
    obtain ⟨hbi, hbp, hbq⟩ := hb i (le_refl i) (by omega)
    have hidx : ((tail + i) % U64) &&& (2 ^ k - 1) = (tail + i) % 2 ^ k := by
      rw [and_mask_eq_mod, mod_U64_mod_pow hk64]
    have hcond : rb.cycleState (((tail + i) % U64) &&& (2 ^ k - 1)) =
        ((tail + i) % U64 + 1) % U64 := by
      rw [hidx, Nat.mod_add_mod]
      exact hchk i (le_refl i) (by omega)
    have hstep : deqReadFrom tail capv (2 ^ k - 1) i (fuel + 1) rb ids prices qtys =
        deqReadFrom tail capv (2 ^ k - 1) (i + 1) fuel
          { rb with
              cycleState := Function.update rb.cycleState ((tail + i) % 2 ^ k)
                ((tail + i + capv) % U64) }
          (ids.set i (rb.ids ((tail + i) % 2 ^ k)))
          (prices.set i (rb.prices ((tail + i) % 2 ^ k)))
          (qtys.set i (rb.qtys ((tail + i) % 2 ^ k))) := by
      simp only [deqReadFrom, hidx, Nat.mod_add_mod, if_pos hbp, if_pos hbq]
      rw [if_pos (hchk i (le_refl i) (by omega))]
    obtain ⟨rb', ids2, prices2, qtys2, hrun, hcap, hmsk, hwi, hri, hids, hprs, hqts,
        hunch, hwr, hlen1, hlen2, hlen3, hout, hkeep⟩ :=
      ih (i + 1)
        ({ rb with
             cycleState := Function.update rb.cycleState ((tail + i) % 2 ^ k)
               ((tail + i + capv) % U64) })
        (ids.set i (rb.ids ((tail + i) % 2 ^ k)))
        (prices.set i (rb.prices ((tail + i) % 2 ^ k)))
        (qtys.set i (rb.qtys ((tail + i) % 2 ^ k)))
        (fun j h1 h2 => by
          have hne : (tail + j) % 2 ^ k ≠ (tail + i) % 2 ^ k :=
            fun hcontra => hdist i j (le_refl i) (by omega) (by omega) hcontra.symm
          show Function.update rb.cycleState ((tail + i) % 2 ^ k)
            ((tail + i + capv) % U64) ((tail + j) % 2 ^ k) = (tail + j + 1) % U64
          rw [Function.update_noteq hne]
          exact hchk j (by omega) (by omega))
        (fun j1 j2 h1 h2 h3 => hdist j1 j2 (by omega) h2 (by omega))
        (fun j h1 h2 => by
          have := hb j (by omega) (by omega)
          simp only [List.length_set]
          exact this)
    refine ⟨rb', ids2, prices2, qtys2, hstep.trans hrun, hcap, hmsk, hwi, hri,
      hids, hprs, hqts, ?_, ?_, ?_, ?_, ?_, ?_, ?_⟩
    · intro off hoff
      have hne : off ≠ (tail + i) % 2 ^ k := hoff i (le_refl i) (by omega)
      exact (hunch off (fun j hj1 hj2 => hoff j (by omega) (by omega))).trans
        (Function.update_noteq hne _ _)
    · intro j h1 h2
      rcases Nat.eq_or_lt_of_le h1 with heq | hgt
      · subst heq
        have hoff : ∀ j2, i + 1 ≤ j2 → j2 < i + 1 + fuel →
            (tail + i) % 2 ^ k ≠ (tail + j2) % 2 ^ k :=
          fun j2 hj1 hj2 => hdist i j2 (le_refl i) (by omega) (by omega)
        exact (hunch _ hoff).trans (Function.update_same _ _ _)
      · exact hwr j hgt (by omega)
    · rw [hlen1, List.length_set]
    · rw [hlen2, List.length_set]
    · rw [hlen3, List.length_set]
    · intro j h1 h2
      rcases Nat.eq_or_lt_of_le h1 with heq | hgt
      · subst heq
        obtain ⟨k1, k2, k3⟩ := hkeep i (Or.inl (by omega))
        rw [k1, k2, k3]
        exact ⟨List.getElem?_set_self hbi, List.getElem?_set_self hbp,
          List.getElem?_set_self hbq⟩
      · exact hout j hgt (by omega)
    · intro j hj
      obtain ⟨k1, k2, k3⟩ := hkeep j (by omega)
      rw [k1, k2, k3]
      have hne : i ≠ j := by omega
      exact ⟨List.getElem?_set_ne hne, List.getElem?_set_ne hne,
        List.getElem?_set_ne hne⟩

/-! ## Behaviour of `EnqueueBatch` on invariant states -/

lemma cycle_at_A {k : Nat} (rb : RingBuffer) (hA : InvA rb) (hc : rb.capacity = 2 ^ k)
    {v : Nat} (h1 : rb.readIndex ≤ v) (h2 : v < rb.readIndex + rb.capacity) :
    rb.cycleState (v % rb.capacity) =
      if v < rb.writeIndex then v + 1 else v := by
  rw [hA.cyc _ (Nat.mod_lt _ (cap_pos hc)), seqCycle_of_window (cap_pos hc) h1 h2]

lemma k_le_64 {k : Nat} {rb : RingBuffer} (hc : rb.capacity = 2 ^ k) {n : Nat}
    (hroom : Room rb n) : k ≤ 64 := by
  have h1 : (2 : Nat) ^ k < 2 ^ 63 := by
    have := hroom.1
    have h2 : rb.capacity < I64 := by omega
    rw [hc] at h2
    exact h2
  have := (Nat.pow_lt_pow_iff_right (by omega : 1 < 2)).mp h1
  omega

/-- A batch enqueue of zero records returns `0` and does not change the
state. -/
lemma EnqueueBatch_nil {k : Nat} {rb : RingBuffer} (ids : List Nat) (prices : List Rat)
    (qtys : List Nat) (hI : Inv k rb) (hroom : Room rb 0) (h0 : ids.length = 0) :
    EnqueueBatch rb ids prices qtys = some (rb, 0) := by
  obtain ⟨hcap, hB, hA⟩ := hI
  have hh : rb.writeIndex < I64 := by have := hroom.1; omega
  have hhU : rb.writeIndex < U64 := lt_U64_of_lt_I64 hh
  by_cases hk : k = 0
  · have hB := hB hk
    have hoff : rb.writeIndex &&& rb.mask = 0 := by rw [hB.mask_eq, Nat.and_zero]
    simp only [EnqueueBatch, h0, hoff, hB.cyc, sub_self, wrapS_zero]
    rw [if_neg (by norm_num), if_pos trivial]
    split
    · rfl
    · simp only [enqWriteFrom, Nat.add_zero, mod_U64_of_lt hhU]
  · have hA := hA hk
    rcases Nat.lt_or_ge rb.writeIndex (rb.readIndex + rb.capacity) with hlt | hge
    · have hc0 : rb.cycleState (rb.writeIndex % rb.capacity) = rb.writeIndex := by
        rw [cycle_at_A rb hA hcap hA.t_le_h hlt]; simp
      simp only [EnqueueBatch, h0, offset_eq hA.mask_eq hcap, hc0, sub_self, wrapS_zero]
      rw [if_neg (by norm_num), if_pos trivial]
      split
      · rfl
      · simp only [enqWriteFrom, Nat.add_zero, mod_U64_of_lt hhU]
    · have hfull : rb.writeIndex = rb.readIndex + rb.capacity := le_antisymm hA.occ hge
      have hcap2 : 2 ≤ rb.capacity := two_le_cap hcap hk
      have hT1 : rb.readIndex + 1 < I64 := by have := hroom.2; omega
      have hoff : rb.writeIndex % rb.capacity = rb.readIndex % rb.capacity := by
        rw [hfull, Nat.add_mod_right]
      have hc0 : rb.cycleState (rb.writeIndex % rb.capacity) = rb.readIndex + 1 := by
        rw [hoff, cycle_at_A rb hA hcap (le_refl _) (by omega), if_pos (by omega)]
      have hd : wrapS (toI (rb.readIndex + 1) - toI rb.writeIndex) =
          (rb.readIndex : Int) + 1 - rb.writeIndex := by
        have := wrapS_sub_of_lt hT1 hh
        omega
      simp only [EnqueueBatch, offset_eq hA.mask_eq hcap, hc0, hd]
      rw [if_pos (by omega)]

/-- A batch enqueue that does not fit (`tail + capacity < head + n`, in
particular any enqueue on a full buffer and any batch larger than the
capacity) returns `0` and does not change the state.  Capacity at least
two. -/
lemma EnqueueBatch_ret0_A {k : Nat} {rb : RingBuffer} (ids : List Nat) (prices : List Rat)
    (qtys : List Nat) (hA : InvA rb) (hc : rb.capacity = 2 ^ k) (hk : k ≠ 0)
    (hroom : Room rb ids.length) (hn : 1 ≤ ids.length)
    (hover : rb.readIndex + rb.capacity < rb.writeIndex + ids.length) :
    EnqueueBatch rb ids prices qtys = some (rb, 0) := by
  have hcap0 : 0 < rb.capacity := cap_pos hc
  have hcap2 : 2 ≤ rb.capacity := two_le_cap hc hk
  have hh : rb.writeIndex < I64 := by have := hroom.1; omega
  rcases Nat.lt_or_ge rb.writeIndex (rb.readIndex + rb.capacity) with hlt | hge
  · -- not full: the endpoint check fails
    have hn2 : 2 ≤ ids.length := by omega
    have hc0 : rb.cycleState (rb.writeIndex % rb.capacity) = rb.writeIndex := by
      rw [cycle_at_A rb hA hc hA.t_le_h hlt]; simp
    have hv : rb.writeIndex + ids.length + U64 - 1 =
        U64 + (rb.writeIndex + ids.length - 1) := by omega
    have hvU : rb.writeIndex + ids.length - 1 < U64 := by
      have := hroom.1; have := U64_eq; omega
    have hvI : rb.writeIndex + ids.length - 1 < I64 := by have := hroom.1; omega
    have hcycv := hA.cyc ((rb.writeIndex + ids.length - 1) % rb.capacity)
      (Nat.mod_lt _ hcap0)
    have hc1lt : rb.cycleState ((rb.writeIndex + ids.length - 1) % rb.capacity) <
        rb.writeIndex + ids.length - 1 := by
      rw [hcycv]
      unfold seqCycle
      have h1 := nextAt_ge rb.capacity rb.readIndex
        ((rb.writeIndex + ids.length - 1) % rb.capacity)
      have h2 := nextAt_lt hcap0 rb.readIndex
        ((rb.writeIndex + ids.length - 1) % rb.capacity)
      split <;> omega
    have hc1I : rb.cycleState ((rb.writeIndex + ids.length - 1) % rb.capacity) < I64 := by
      omega
    have hd2 : wrapS (toI (rb.cycleState ((rb.writeIndex + ids.length - 1) % rb.capacity)) -
        toI (rb.writeIndex + ids.length - 1)) < 0 := by
      rw [wrapS_sub_of_lt hc1I hvI]
      have : (rb.cycleState ((rb.writeIndex + ids.length - 1) % rb.capacity) : Int) <
          ((rb.writeIndex + ids.length - 1 : Nat) : Int) := by exact_mod_cast hc1lt
      omega
    simp only [EnqueueBatch, offset_eq hA.mask_eq hc, hc0, sub_self, wrapS_zero]
    rw [if_neg (by norm_num), if_pos trivial, hv, Nat.add_mod_left, mod_U64_of_lt hvU,
      if_pos hd2]
  · -- full: the head-slot check fails
    have hfull : rb.writeIndex = rb.readIndex + rb.capacity := le_antisymm hA.occ hge
    have hT1 : rb.readIndex + 1 < I64 := by have := hroom.2; omega
    have hoff : rb.writeIndex % rb.capacity = rb.readIndex % rb.capacity := by
      rw [hfull, Nat.add_mod_right]
    have hc0 : rb.cycleState (rb.writeIndex % rb.capacity) = rb.readIndex + 1 := by
      rw [hoff, cycle_at_A rb hA hc (le_refl _) (by omega), if_pos (by omega)]
    have hd : wrapS (toI (rb.readIndex + 1) - toI rb.writeIndex) =
        (rb.readIndex : Int) + 1 - rb.writeIndex := by
      have := wrapS_sub_of_lt hT1 hh
      push_cast at this ⊢
      omega
    simp only [EnqueueBatch, offset_eq hA.mask_eq hc, hc0, hd]
    rw [if_pos (by omega)]

/-- A batch enqueue that fits reduces to its payload-writing loop after
a successful reservation. -/
lemma EnqueueBatch_reduce_A {k : Nat} {rb : RingBuffer} (ids : List Nat)
    (prices : List Rat) (qtys : List Nat) (hA : InvA rb) (hc : rb.capacity = 2 ^ k)
    (hroom : Room rb ids.length) (hn : 1 ≤ ids.length)
    (hfit : rb.writeIndex + ids.length ≤ rb.readIndex + rb.capacity) :
    EnqueueBatch rb ids prices qtys =
      match enqWriteFrom rb.writeIndex ids prices qtys 0 ids.length
        { rb with writeIndex := rb.writeIndex + ids.length } with
      | some rb2 => some (rb2, ids.length)
      | none => none := by
  have hcap0 : 0 < rb.capacity := cap_pos hc
  have hth := hA.t_le_h
  have hocc := hA.occ
  have hh : rb.writeIndex < I64 := by have := hroom.1; omega
  have hlt : rb.writeIndex < rb.readIndex + rb.capacity := by omega
  have hc0 : rb.cycleState (rb.writeIndex % rb.capacity) = rb.writeIndex := by
    rw [cycle_at_A rb hA hc hA.t_le_h hlt]; simp
  have hv : rb.writeIndex + ids.length + U64 - 1 =
      U64 + (rb.writeIndex + ids.length - 1) := by omega
  have hvU : rb.writeIndex + ids.length - 1 < U64 := by
    have := hroom.1; have := U64_eq; omega
  have hc1 : rb.cycleState ((rb.writeIndex + ids.length - 1) % rb.capacity) =
      rb.writeIndex + ids.length - 1 := by
    rw [cycle_at_A rb hA hc (by omega) (by omega), if_neg (by omega)]
  have hHn : rb.writeIndex + ids.length < U64 := by
    have := hroom.1; have := U64_eq; omega
  simp only [EnqueueBatch, offset_eq hA.mask_eq hc, hc0, sub_self, wrapS_zero]
  rw [if_neg (by norm_num), if_pos trivial, hv, Nat.add_mod_left, mod_U64_of_lt hvU,
    hc1, sub_self, wrapS_zero, if_neg (by norm_num), mod_U64_of_lt hHn]

/-- On a capacity-one buffer a batch enqueue of two or more records
never fits and returns `0`. -/
lemma EnqueueBatch_ret0_B {rb : RingBuffer} (ids : List Nat) (prices : List Rat)
    (qtys : List Nat) (hB : InvB rb) (hroom : Room rb ids.length)
    (hn : 2 ≤ ids.length) :
    EnqueueBatch rb ids prices qtys = some (rb, 0) := by
  have hh : rb.writeIndex < I64 := by have := hroom.1; omega
  have hvU : rb.writeIndex + ids.length - 1 < U64 := by
    have := hroom.1; have := U64_eq; omega
  have hvI : rb.writeIndex + ids.length - 1 < I64 := by have := hroom.1; omega
  have hoff : rb.writeIndex &&& rb.mask = 0 := by rw [hB.mask_eq, Nat.and_zero]
  have hv : rb.writeIndex + ids.length + U64 - 1 =
      U64 + (rb.writeIndex + ids.length - 1) := by omega
  have hoff2 : ∀ x : Nat, x &&& rb.mask = 0 := fun x => by rw [hB.mask_eq, Nat.and_zero]
  simp only [EnqueueBatch, hoff, hB.cyc, sub_self, wrapS_zero]
  rw [if_neg (by norm_num), if_pos trivial, hv, Nat.add_mod_left, mod_U64_of_lt hvU,
    hoff2, hB.cyc]
  rw [if_pos (by rw [wrapS_sub_of_lt hh hvI]; omega)]

/-- On a capacity-one buffer a batch enqueue of exactly one record
reserves the slot and reduces to its payload-writing loop. -/
lemma EnqueueBatch_reduce_B {rb : RingBuffer} (ids : List Nat) (prices : List Rat)
    (qtys : List Nat) (hB : InvB rb) (hroom : Room rb ids.length)
    (hn : ids.length = 1) :
    EnqueueBatch rb ids prices qtys =
      match enqWriteFrom rb.writeIndex ids prices qtys 0 1
        { rb with writeIndex := rb.writeIndex + 1 } with
      | some rb2 => some (rb2, 1)
      | none => none := by
  have hh : rb.writeIndex < I64 := by have := hroom.1; have := hB.cap1; omega
  have hhU : rb.writeIndex < U64 := lt_U64_of_lt_I64 hh
  have hH1 : rb.writeIndex + 1 < U64 := by
    have h1 := hroom.1
    have h2 := hB.cap1
    have h3 := U64_eq
    omega
  have hoff : rb.writeIndex &&& rb.mask = 0 := by rw [hB.mask_eq, Nat.and_zero]
  have hoff2 : ∀ x : Nat, x &&& rb.mask = 0 := fun x => by rw [hB.mask_eq, Nat.and_zero]
  have hv : rb.writeIndex + 1 + U64 - 1 = U64 + rb.writeIndex := by omega
  simp only [EnqueueBatch, hn, hoff, hB.cyc, sub_self, wrapS_zero]
  rw [if_neg (by norm_num), if_pos trivial, hv, Nat.add_mod_left, mod_U64_of_lt hhU,
    hoff2, hB.cyc, sub_self, wrapS_zero, if_neg (by norm_num), mod_U64_of_lt hH1]

/-- Publishing a fitting batch of `n` slots moves the cycle
characterisation from head `h` to head `h + n`. -/
lemma seqCycle_bump_head_batch {cap t h n : Nat} (hcap : 0 < cap) (hth : t ≤ h)
    (hfit : h + n ≤ t + cap) {f f2 : Nat → Nat}
    (hf : ∀ off, off < cap → f off = seqCycle cap t h off)
    (hunch : ∀ off, (∀ j, j < n → off ≠ (h + j) % cap) → f2 off = f off)
    (hwr : ∀ j, j < n → f2 ((h + j) % cap) = h + j + 1) :
    ∀ off, off < cap → f2 off = seqCycle cap t (h + n) off := by
  intro off hoff
  by_cases hx : ∃ j, j < n ∧ off = (h + j) % cap
  · obtain ⟨j, hj, rfl⟩ := hx
    rw [hwr j hj, seqCycle_of_window hcap (by omega) (by omega), if_pos (by omega)]
  · push_neg at hx
    rw [hunch off hx, hf off hoff]
    have hcmod := nextAt_mod hcap hoff t
    have hc1 := nextAt_ge cap t off
    have hc2 := nextAt_lt hcap t off
    have hnot : ¬(h ≤ nextAt cap t off ∧ nextAt cap t off < h + n) := by
      rintro ⟨ha, hb⟩
      refine hx (nextAt cap t off - h) (by omega) ?_
      have he : h + (nextAt cap t off - h) = nextAt cap t off := by omega
      rw [he, hcmod]
    unfold seqCycle
    split_ifs <;> omega

/-- Releasing a consumed batch of `n` slots moves the cycle
characterisation from tail `t` to tail `t + n`. -/
lemma seqCycle_bump_tail_batch {cap t h n : Nat} (hcap : 0 < cap)
    (hfit : t + n ≤ h) (hocc : h ≤ t + cap) {f f2 : Nat → Nat}
    (hf : ∀ off, off < cap → f off = seqCycle cap t h off)
    (hunch : ∀ off, (∀ j, j < n → off ≠ (t + j) % cap) → f2 off = f off)
    (hwr : ∀ j, j < n → f2 ((t + j) % cap) = t + j + cap) :
    ∀ off, off < cap → f2 off = seqCycle cap (t + n) h off := by
  intro off hoff
  by_cases hx : ∃ j, j < n ∧ off = (t + j) % cap
  · obtain ⟨j, hj, rfl⟩ := hx
    rw [hwr j hj]
    unfold seqCycle
    have h4 : nextAt cap (t + n) ((t + j) % cap) = t + j + cap :=
      nextAt_unique hcap (by omega) (by omega) (Nat.add_mod_right (t + j) cap)
    rw [h4, if_neg (by omega)]
  · push_neg at hx
    rw [hunch off hx, hf off hoff]
    have hcmod := nextAt_mod hcap hoff t
    have hc1 := nextAt_ge cap t off
    have hc2 := nextAt_lt hcap t off
    have hnot : ¬(t ≤ nextAt cap t off ∧ nextAt cap t off < t + n) := by
      rintro ⟨ha, hb⟩
      refine hx (nextAt cap t off - t) (by omega) ?_
      have he : t + (nextAt cap t off - t) = nextAt cap t off := by omega
      rw [he, hcmod]
    have h4 : nextAt cap (t + n) off = nextAt cap t off :=
      nextAt_unique hcap (by omega) (by omega) hcmod
    unfold seqCycle
    rw [h4]

lemma Inv_EnqueueBatch {k : Nat} {rb rb' : RingBuffer} {ids : List Nat}
    {prices : List Rat} {qtys : List Nat} {n : Nat} (hI : Inv k rb)
    (hroom : Room rb ids.length)
    (hstep : EnqueueBatch rb ids prices qtys = some (rb', n)) : Inv k rb' := by
  obtain ⟨hcap, hBf, hAf⟩ := hI
  have hk64 : k ≤ 64 := k_le_64 hcap hroom
  rcases Nat.eq_zero_or_pos ids.length with h0 | hn
  · rw [EnqueueBatch_nil ids prices qtys ⟨hcap, hBf, hAf⟩ (h0 ▸ hroom) h0] at hstep
    simp only [Option.some.injEq, Prod.mk.injEq] at hstep
    obtain ⟨hrb, -⟩ := hstep
    subst hrb
    exact ⟨hcap, hBf, hAf⟩
  · by_cases hk : k = 0
    · have hB := hBf hk
      rcases Nat.lt_or_ge ids.length 2 with hn1 | hn2
      · have hn1 : ids.length = 1 := by omega
        rw [EnqueueBatch_reduce_B ids prices qtys hB hroom hn1] at hstep
        rcases hw : enqWriteFrom rb.writeIndex ids prices qtys 0 1
            { rb with writeIndex := rb.writeIndex + 1 } with - | rb2
        · rw [hw] at hstep; exact absurd hstep (by simp)
        · rw [hw] at hstep
          simp only [Option.some.injEq, Prod.mk.injEq] at hstep
          obtain ⟨hrb, -⟩ := hstep
          subst hrb
          obtain ⟨rb'', hrun, hcap2, hmsk, hwi, hri, hunch, hwr⟩ :=
            enqWriteFrom_spec (k := 0) (by omega) rb.writeIndex ids prices qtys 1 0
              ({ rb with writeIndex := rb.writeIndex + 1 })
              (by simpa using hB.mask_eq)
              (fun j h1 h2 => by
                have hj : j = 0 := by omega
                subst hj
                exact enqWriteFrom_some_bounds 1 0 _ rb2 hw 0 (le_refl 0) (by omega))
              (fun j1 j2 h1 h2 h3 => by omega)
          rw [hrun] at hw
          simp only [Option.some.injEq] at hw
          subst hw
          refine ⟨hcap2.trans hcap, fun _ => ?_, fun hk2 => absurd hk hk2⟩
          have hm0 : (rb.writeIndex + 0) % 2 ^ 0 = 0 := by simp [Nat.mod_one]
          have hH1 : rb.writeIndex + 1 < U64 := by
            have := hroom.1; have := hB.cap1; have := U64_eq; omega
          obtain ⟨hcy, -, -, -⟩ := hwr 0 (le_refl 0) (by omega)
          rw [hm0] at hcy
          exact { cap1 := hcap2.trans hB.cap1,
                  mask_eq := hmsk.trans hB.mask_eq,
                  t_le_h := by
                    rw [hri, hwi]
                    show rb.readIndex ≤ rb.writeIndex + 1
                    have := hB.t_le_h; omega,
                  cyc := by
                    rw [hcy, hwi]
                    show (rb.writeIndex + 0 + 1) % U64 = rb.writeIndex + 1
                    rw [Nat.add_zero]
                    exact mod_U64_of_lt hH1 }
      · rw [EnqueueBatch_ret0_B ids prices qtys hB hroom hn2] at hstep
        simp only [Option.some.injEq, Prod.mk.injEq] at hstep
        obtain ⟨hrb, -⟩ := hstep
        subst hrb
        exact ⟨hcap, hBf, hAf⟩
    · have hA := hAf hk
      have hth := hA.t_le_h
      have hocc := hA.occ
      rcases Nat.lt_or_ge (rb.readIndex + rb.capacity) (rb.writeIndex + ids.length)
        with hover | hfit
      · rw [EnqueueBatch_ret0_A ids prices qtys hA hcap hk hroom hn hover] at hstep
        simp only [Option.some.injEq, Prod.mk.injEq] at hstep
        obtain ⟨hrb, -⟩ := hstep
        subst hrb
        exact ⟨hcap, hBf, hAf⟩
      · rw [EnqueueBatch_reduce_A ids prices qtys hA hcap hroom hn hfit] at hstep
        rcases hw : enqWriteFrom rb.writeIndex ids prices qtys 0 ids.length
            { rb with writeIndex := rb.writeIndex + ids.length } with - | rb2
        · rw [hw] at hstep; exact absurd hstep (by simp)
        · rw [hw] at hstep
          simp only [Option.some.injEq, Prod.mk.injEq] at hstep
          obtain ⟨hrb, -⟩ := hstep
          subst hrb
          have hcapk : rb.capacity = 2 ^ k := hcap
          have hdist : ∀ j1 j2, 0 ≤ j1 → j1 < j2 → j2 < 0 + ids.length →
              (rb.writeIndex + j1) % 2 ^ k ≠ (rb.writeIndex + j2) % 2 ^ k := by
            intro j1 j2 h1 h2 h3 hcontra
            have := @eq_of_mod_eq_of_lt (2 ^ k) _ _ hcontra (by omega)
              (by rw [← hcapk]; omega)
            omega
          obtain ⟨rb'', hrun, hcap2, hmsk, hwi, hri, hunch, hwr⟩ :=
            enqWriteFrom_spec hk64 rb.writeIndex ids prices qtys ids.length 0
              ({ rb with writeIndex := rb.writeIndex + ids.length })
              (by show rb.mask = 2 ^ k - 1; rw [hA.mask_eq, hcapk])
              (fun j h1 h2 =>
                enqWriteFrom_some_bounds ids.length 0 _ rb2 hw j h1 h2)
              hdist
          rw [hrun] at hw
          simp only [Option.some.injEq] at hw
          subst hw
          refine ⟨hcap2.trans hcap, fun h0 => absurd h0 hk, fun _ => ?_⟩
          have hsmall : ∀ j, j < ids.length →
              (rb.writeIndex + j + 1) % U64 = rb.writeIndex + j + 1 := by
            intro j hj
            apply mod_U64_of_lt
            have := hroom.1; have := U64_eq; omega
          refine { mask_eq := by
                     rw [hmsk, hcap2]
                     show rb.mask = rb.capacity - 1
                     exact hA.mask_eq,
                   t_le_h := by
                     rw [hri, hwi]
                     show rb.readIndex ≤ rb.writeIndex + ids.length
                     omega,
                   occ := by
                     rw [hri, hwi, hcap2]
                     show rb.writeIndex + ids.length ≤ rb.readIndex + rb.capacity
                     omega,
                   cyc := ?_ }
          have hcyc2 : ∀ off, off < rb.capacity →
              rb''.cycleState off = seqCycle rb.capacity rb.readIndex
                (rb.writeIndex + ids.length) off := by
            apply seqCycle_bump_head_batch (cap_pos hcap) hth hfit hA.cyc
            · intro off hoffj
              refine ((hunch off ?_).1).trans rfl
              intro j h1 h2
              rw [← hcapk]
              exact hoffj j (by omega)
            · intro j hj
              obtain ⟨hcy, -, -, -⟩ := hwr j (by omega) (by omega)
              rw [hcapk]
              rw [hcy, hsmall j hj]
          intro off hoff
          rw [hcyc2 off (by rw [hcap2] at hoff; exact hoff)]
          rw [hcap2, hri, hwi]

/-! ## Behaviour of `DequeueBatch` on invariant states -/

/-- A batch dequeue with an empty output buffer returns `0` immediately,
on every state. -/
lemma DequeueBatch_nil (rb : RingBuffer) (ids : List Nat) (prices : List Rat)
    (qtys : List Nat) (h0 : ids.length = 0) :
    DequeueBatch rb ids prices qtys = some (rb, ids, prices, qtys, 0) := by
  simp [DequeueBatch, h0]

/-- A batch dequeue asking for more records than are present returns `0`
and does not change the state (power-of-two capacity). -/
lemma DequeueBatch_ret0_A {k : Nat} {rb : RingBuffer} (ids : List Nat)
    (prices : List Rat) (qtys : List Nat) (hA : InvA rb) (hc : rb.capacity = 2 ^ k)
    (hroom : Room rb ids.length) (hn : 1 ≤ ids.length)
    (hunder : rb.writeIndex < rb.readIndex + ids.length) :
    DequeueBatch rb ids prices qtys = some (rb, ids, prices, qtys, 0) := by
  have hcap0 : 0 < rb.capacity := cap_pos hc
  have hth := hA.t_le_h
  have hocc := hA.occ
  have hT1 : rb.readIndex + 1 < I64 := by have := hroom.2; omega
  rcases Nat.lt_or_ge rb.readIndex rb.writeIndex with hlt | hge
  · -- records present but fewer than requested: the endpoint check fails
    have hc0 : rb.cycleState (rb.readIndex % rb.capacity) = rb.readIndex + 1 := by
      rw [cycle_at_A rb hA hc (le_refl _) (by omega), if_pos hlt]
    have hv : rb.readIndex + ids.length + U64 - 1 =
        U64 + (rb.readIndex + ids.length - 1) := by omega
    have hvU : rb.readIndex + ids.length - 1 < U64 := by
      have := hroom.2; have := U64_eq; omega
    have htnI : rb.readIndex + ids.length < I64 := by have := hroom.2; omega
    have htnU : rb.readIndex + ids.length < U64 := lt_U64_of_lt_I64 htnI
    have hc1lt : rb.cycleState ((rb.readIndex + ids.length - 1) % rb.capacity) <
        rb.readIndex + ids.length := by
      rw [hA.cyc _ (Nat.mod_lt _ hcap0)]
      have h1 := nextAt_ge rb.capacity rb.readIndex
        ((rb.readIndex + ids.length - 1) % rb.capacity)
      have h2 := nextAt_lt hcap0 rb.readIndex
        ((rb.readIndex + ids.length - 1) % rb.capacity)
      rcases Nat.le_total ids.length rb.capacity with hsm | hbig
      · have h3 : nextAt rb.capacity rb.readIndex
            ((rb.readIndex + ids.length - 1) % rb.capacity) =
            rb.readIndex + ids.length - 1 :=
          nextAt_unique hcap0 (by omega) (by omega) rfl
        unfold seqCycle
        rw [h3]
        split <;> omega
      · unfold seqCycle
        split <;> omega
    have hc1I : rb.cycleState ((rb.readIndex + ids.length - 1) % rb.capacity) < I64 := by
      omega
    have hd2 : wrapS (toI (rb.cycleState ((rb.readIndex + ids.length - 1) % rb.capacity)) -
        toI (rb.readIndex + ids.length)) < 0 := by
      rw [wrapS_sub_of_lt hc1I htnI]
      omega
    simp only [DequeueBatch, offset_eq hA.mask_eq hc, hc0,
      mod_U64_of_lt (lt_U64_of_lt_I64 hT1), sub_self, wrapS_zero]
    rw [if_neg (by omega), if_neg (by norm_num), hv, Nat.add_mod_left,
      mod_U64_of_lt hvU, mod_U64_of_lt htnU, if_pos hd2]
  · -- empty buffer: the head check fails
    have hempty : rb.readIndex = rb.writeIndex := le_antisymm hth hge
    have hc0 : rb.cycleState (rb.readIndex % rb.capacity) = rb.readIndex := by
      rw [cycle_at_A rb hA hc (le_refl _) (by omega), if_neg (by omega)]
    have hT : rb.readIndex < I64 := by omega
    have hd : wrapS (toI rb.readIndex - toI (rb.readIndex + 1)) = -1 := by
      rw [wrapS_sub_of_lt hT hT1]
      omega
    simp only [DequeueBatch, offset_eq hA.mask_eq hc, hc0,
      mod_U64_of_lt (lt_U64_of_lt_I64 hT1), hd]
    rw [if_neg (by omega), if_pos (by omega)]

/-- A batch dequeue whose full range is present reduces to its reading
loop after a successful reservation. -/
lemma DequeueBatch_reduce_A {k : Nat} {rb : RingBuffer} (ids : List Nat)
    (prices : List Rat) (qtys : List Nat) (hA : InvA rb) (hc : rb.capacity = 2 ^ k)
    (hroom : Room rb ids.length) (hn : 1 ≤ ids.length)
    (hfit : rb.readIndex + ids.length ≤ rb.writeIndex) :
    DequeueBatch rb ids prices qtys =
      match deqReadFrom rb.readIndex rb.capacity rb.mask 0 ids.length
        { rb with readIndex := rb.readIndex + ids.length } ids prices qtys with
      | some (rb2, ids2, prices2, qtys2) => some (rb2, ids2, prices2, qtys2, ids.length)
      | none => none := by
  have hcap0 : 0 < rb.capacity := cap_pos hc
  have hth := hA.t_le_h
  have hocc := hA.occ
  have hT1 : rb.readIndex + 1 < I64 := by have := hroom.2; omega
  have hc0 : rb.cycleState (rb.readIndex % rb.capacity) = rb.readIndex + 1 := by
    rw [cycle_at_A rb hA hc (le_refl _) (by omega), if_pos (by omega)]
  have hv : rb.readIndex + ids.length + U64 - 1 =
      U64 + (rb.readIndex + ids.length - 1) := by omega
  have hvU : rb.readIndex + ids.length - 1 < U64 := by
    have := hroom.2; have := U64_eq; omega
  have htnI : rb.readIndex + ids.length < I64 := by have := hroom.2; omega
  have htnU : rb.readIndex + ids.length < U64 := lt_U64_of_lt_I64 htnI
  have hc1 : rb.cycleState ((rb.readIndex + ids.length - 1) % rb.capacity) =
      rb.readIndex + ids.length := by
    rw [cycle_at_A rb hA hc (by omega) (by omega), if_pos (by omega)]
    omega
  simp only [DequeueBatch, offset_eq hA.mask_eq hc, hc0,
    mod_U64_of_lt (lt_U64_of_lt_I64 hT1), sub_self, wrapS_zero]
  rw [if_neg (by omega), if_neg (by norm_num), hv, Nat.add_mod_left,
    mod_U64_of_lt hvU, mod_U64_of_lt htnU, hc1, sub_self, wrapS_zero,
    if_neg (by norm_num)]

/-- On a capacity-one buffer, a batch dequeue asking for more records
than are present returns `0` unchanged. -/
lemma DequeueBatch_ret0_B {rb : RingBuffer} (ids : List Nat) (prices : List Rat)
    (qtys : List Nat) (hB : InvB rb) (hroom : Room rb ids.length)
    (hn : 1 ≤ ids.length) (hunder : rb.writeIndex < rb.readIndex + ids.length) :
    DequeueBatch rb ids prices qtys = some (rb, ids, prices, qtys, 0) := by
  have hth := hB.t_le_h
  have hT1 : rb.readIndex + 1 < I64 := by have := hroom.2; have := hB.cap1; omega
  have hh : rb.writeIndex < I64 := by have := hroom.1; omega
  have hoff : rb.readIndex &&& rb.mask = 0 := by rw [hB.mask_eq, Nat.and_zero]
  have hoff2 : ∀ x : Nat, x &&& rb.mask = 0 := fun x => by rw [hB.mask_eq, Nat.and_zero]
  have htnI : rb.readIndex + ids.length < I64 := by have := hroom.2; omega
  have htnU : rb.readIndex + ids.length < U64 := lt_U64_of_lt_I64 htnI
  have hv : rb.readIndex + ids.length + U64 - 1 =
      U64 + (rb.readIndex + ids.length - 1) := by omega
  have hvU : rb.readIndex + ids.length - 1 < U64 := by
    have := hroom.2; have := U64_eq; omega
  rcases Nat.lt_or_ge rb.readIndex rb.writeIndex with hlt | hge
  · have hd : wrapS (toI rb.writeIndex - toI (rb.readIndex + 1)) =
        (rb.writeIndex : Int) - ((rb.readIndex : Int) + 1) := by
      have := wrapS_sub_of_lt hh hT1
      push_cast at this ⊢
      omega
    have hd2 : wrapS (toI rb.writeIndex - toI (rb.readIndex + ids.length)) < 0 := by
      rw [wrapS_sub_of_lt hh htnI]
      omega
    simp only [DequeueBatch, hoff, hB.cyc, mod_U64_of_lt (lt_U64_of_lt_I64 hT1), hd]
    rw [if_neg (by omega), if_neg (by omega), hv, Nat.add_mod_left,
      mod_U64_of_lt hvU, hoff2, hB.cyc, mod_U64_of_lt htnU, if_pos hd2]
  · have hempty : rb.readIndex = rb.writeIndex := le_antisymm hth hge
    have hd : wrapS (toI rb.writeIndex - toI (rb.readIndex + 1)) = -1 := by
      rw [wrapS_sub_of_lt hh hT1]
      omega
    simp only [DequeueBatch, hoff, hB.cyc, mod_U64_of_lt (lt_U64_of_lt_I64 hT1), hd]
    rw [if_neg (by omega), if_pos (by omega)]

/-- On a capacity-one buffer holding at least two records, a batch
dequeue whose range is present spins forever in the publication wait:
the slot cycle has already moved a full lap ahead. -/
lemma DequeueBatch_stuck_B {rb : RingBuffer} (ids : List Nat) (prices : List Rat)
    (qtys : List Nat) (hB : InvB rb) (hroom : Room rb ids.length)
    (hn : 1 ≤ ids.length) (hfit : rb.readIndex + ids.length ≤ rb.writeIndex)
    (htwo : rb.readIndex + 2 ≤ rb.writeIndex) :
    DequeueBatch rb ids prices qtys = none := by
  have hth := hB.t_le_h
  have hT1 : rb.readIndex + 1 < I64 := by have := hroom.2; have := hB.cap1; omega
  have hT1U : rb.readIndex + 1 < U64 := lt_U64_of_lt_I64 hT1
  have hh : rb.writeIndex < I64 := by have := hroom.1; omega
  have hoff : rb.readIndex &&& rb.mask = 0 := by rw [hB.mask_eq, Nat.and_zero]
  have hoff2 : ∀ x : Nat, x &&& rb.mask = 0 := fun x => by rw [hB.mask_eq, Nat.and_zero]
  have htnI : rb.readIndex + ids.length < I64 := by have := hroom.2; omega
  have htnU : rb.readIndex + ids.length < U64 := lt_U64_of_lt_I64 htnI
  have hv : rb.readIndex + ids.length + U64 - 1 =
      U64 + (rb.readIndex + ids.length - 1) := by omega
  have hvU : rb.readIndex + ids.length - 1 < U64 := by
    have := hroom.2; have := U64_eq; omega
  have hTU : rb.readIndex < U64 := by omega
  have hd : wrapS (toI rb.writeIndex - toI (rb.readIndex + 1)) =
      (rb.writeIndex : Int) - ((rb.readIndex : Int) + 1) := by
    have := wrapS_sub_of_lt hh hT1
    omega
  have hd2 : wrapS (toI rb.writeIndex - toI (rb.readIndex + ids.length)) =
      (rb.writeIndex : Int) - ((rb.readIndex : Int) + (ids.length : Int)) := by
    have := wrapS_sub_of_lt hh htnI
    omega
  obtain ⟨m, hm⟩ : ∃ m, ids.length = m + 1 := ⟨ids.length - 1, by omega⟩
  simp only [DequeueBatch, hoff, hB.cyc, mod_U64_of_lt hT1U, hd]
  rw [if_neg (by omega), if_neg (by omega), hv, Nat.add_mod_left,
    mod_U64_of_lt hvU, hoff2, hB.cyc, mod_U64_of_lt htnU, hd2,
    if_neg (by omega), hm]
  simp only [deqReadFrom, Nat.add_zero, mod_U64_of_lt hTU, hoff2]
  rw [if_neg (by
    show ¬rb.cycleState 0 = (rb.readIndex + 1) % U64
    rw [hB.cyc, mod_U64_of_lt hT1U]
    omega)]

/-- On a capacity-one buffer holding exactly one record, a batch dequeue
of one record reduces to its reading loop. -/
lemma DequeueBatch_reduce_B {rb : RingBuffer} (ids : List Nat) (prices : List Rat)
    (qtys : List Nat) (hB : InvB rb) (hroom : Room rb ids.length)
    (hn : ids.length = 1) (hone : rb.writeIndex = rb.readIndex + 1) :
    DequeueBatch rb ids prices qtys =
      match deqReadFrom rb.readIndex rb.capacity rb.mask 0 1
        { rb with readIndex := rb.readIndex + 1 } ids prices qtys with
      | some (rb2, ids2, prices2, qtys2) => some (rb2, ids2, prices2, qtys2, 1)
      | none => none := by
  have hT1 : rb.readIndex + 1 < I64 := by have := hroom.2; have := hB.cap1; omega
  have hT1U : rb.readIndex + 1 < U64 := lt_U64_of_lt_I64 hT1
  have hTU : rb.readIndex < U64 := by omega
  have hoff : rb.readIndex &&& rb.mask = 0 := by rw [hB.mask_eq, Nat.and_zero]
  have hoff2 : ∀ x : Nat, x &&& rb.mask = 0 := fun x => by rw [hB.mask_eq, Nat.and_zero]
  have hv : rb.readIndex + 1 + U64 - 1 = U64 + rb.readIndex := by omega
  simp only [DequeueBatch, hn, hoff, hB.cyc, hone, mod_U64_of_lt hT1U, sub_self,
    wrapS_zero]
  rw [if_neg (by omega), if_neg (by norm_num), hv, Nat.add_mod_left,
    mod_U64_of_lt hTU, hoff2, hB.cyc, hone, sub_self, wrapS_zero,
    if_neg (by norm_num)]

lemma Inv_DequeueBatch {k : Nat} {rb rb' : RingBuffer} {ids ids2 : List Nat}
    {prices prices2 : List Rat} {qtys qtys2 : List Nat} {n : Nat} (hI : Inv k rb)
    (hroom : Room rb ids.length)
    (hstep : DequeueBatch rb ids prices qtys = some (rb', ids2, prices2, qtys2, n)) :
    Inv k rb' := by
  obtain ⟨hcap, hBf, hAf⟩ := hI
  have hk64 : k ≤ 64 := k_le_64 hcap hroom
  rcases Nat.eq_zero_or_pos ids.length with h0 | hn
  · rw [DequeueBatch_nil rb ids prices qtys h0] at hstep
    simp only [Option.some.injEq, Prod.mk.injEq] at hstep
    obtain ⟨hrb, -⟩ := hstep
    subst hrb
    exact ⟨hcap, hBf, hAf⟩
  · by_cases hk : k = 0
    · have hB := hBf hk
      have hth := hB.t_le_h
      rcases Nat.lt_or_ge rb.writeIndex (rb.readIndex + ids.length) with hunder | hfit
      · rw [DequeueBatch_ret0_B ids prices qtys hB hroom hn hunder] at hstep
        simp only [Option.some.injEq, Prod.mk.injEq] at hstep
        obtain ⟨hrb, -⟩ := hstep
        subst hrb
        exact ⟨hcap, hBf, hAf⟩
      · rcases Nat.lt_or_ge (rb.readIndex + 1) rb.writeIndex with htwo | hone
        · rw [DequeueBatch_stuck_B ids prices qtys hB hroom hn hfit (by omega)] at hstep
          exact absurd hstep (by simp)
        · have hone2 : rb.writeIndex = rb.readIndex + 1 := by omega
          have hn1 : ids.length = 1 := by omega
          rw [DequeueBatch_reduce_B ids prices qtys hB hroom hn1 hone2] at hstep
          rcases hw : deqReadFrom rb.readIndex rb.capacity rb.mask 0 1
              { rb with readIndex := rb.readIndex + 1 } ids prices qtys
            with - | quad
          · rw [hw] at hstep; exact absurd hstep (by simp)
          · obtain ⟨rb2, a2, b2, c2⟩ := quad
            rw [hw] at hstep
            simp only [Option.some.injEq, Prod.mk.injEq] at hstep
            obtain ⟨hrb, -⟩ := hstep
            subst hrb
            have hT1U : rb.readIndex + 1 < U64 := by
              have h1 := hroom.2
              have h2 := hB.cap1
              have h3 := U64_eq
              omega
            have hconv : deqReadFrom rb.readIndex rb.capacity rb.mask 0 1
                ({ rb with readIndex := rb.readIndex + 1 }) ids prices qtys =
                deqReadFrom rb.readIndex rb.capacity 0 0 1
                ({ rb with readIndex := rb.readIndex + 1 }) ids prices qtys := by
              rw [hB.mask_eq]
            rw [hconv] at hw
            obtain ⟨rb'', i2, p2, q2, hrun, hcap2, hmsk, hwi, hri, -, -, -, hunch,
                hwr, -, -, -, -, -⟩ :=
              deqReadFrom_spec (k := 0) (by omega) rb.readIndex rb.capacity 1 0
                ({ rb with readIndex := rb.readIndex + 1 }) ids prices qtys
                (fun j h1 h2 => by
                  have hj : j = 0 := by omega
                  subst hj
                  show rb.cycleState ((rb.readIndex + 0) % 2 ^ 0) =
                    (rb.readIndex + 0 + 1) % U64
                  have h00 : (rb.readIndex + 0) % 2 ^ 0 = 0 := by
                    simp [pow_zero, Nat.mod_one]
                  rw [h00, hB.cyc, hone2, Nat.add_zero, mod_U64_of_lt hT1U])
                (fun j1 j2 h1 h2 h3 => by omega)
                (fun j h1 h2 => by
                  have hj : j = 0 := by omega
                  subst hj
                  refine ⟨by omega, ?_, ?_⟩
                  · exact (deqReadFrom_some_bounds 1 0 _ _ _ _ _ hw 0 (le_refl 0)
                      (by omega)).1
                  · exact (deqReadFrom_some_bounds 1 0 _ _ _ _ _ hw 0 (le_refl 0)
                      (by omega)).2)
            rw [show (2 : Nat) ^ 0 - 1 = 0 from rfl] at hrun
            rw [hrun] at hw
            simp only [Option.some.injEq, Prod.mk.injEq] at hw
            obtain ⟨hrb2, -, -, -⟩ := hw
            subst hrb2
            refine ⟨hcap2.trans hcap, fun _ => ?_, fun hk2 => absurd hk hk2⟩
            obtain hcy := hwr 0 (le_refl 0) (by omega)
            have hm0 : (rb.readIndex + 0) % 2 ^ 0 = 0 := by simp [Nat.mod_one]
            rw [hm0] at hcy
            exact { cap1 := hcap2.trans hB.cap1,
                    mask_eq := hmsk.trans hB.mask_eq,
                    t_le_h := by
                      rw [hri, hwi]
                      show rb.readIndex + 1 ≤ rb.writeIndex
                      omega,
                    cyc := by
                      rw [hcy, hwi]
                      show (rb.readIndex + 0 + rb.capacity) % U64 = rb.writeIndex
                      rw [Nat.add_zero, hB.cap1, mod_U64_of_lt hT1U]
                      omega }
    · have hA := hAf hk
      have hth := hA.t_le_h
      have hocc := hA.occ
      rcases Nat.lt_or_ge rb.writeIndex (rb.readIndex + ids.length) with hunder | hfit
      · rw [DequeueBatch_ret0_A ids prices qtys hA hcap hroom hn hunder] at hstep
        simp only [Option.some.injEq, Prod.mk.injEq] at hstep
        obtain ⟨hrb, -⟩ := hstep
        subst hrb
        exact ⟨hcap, hBf, hAf⟩
      · rw [DequeueBatch_reduce_A ids prices qtys hA hcap hroom hn hfit] at hstep
        rcases hw : deqReadFrom rb.readIndex rb.capacity rb.mask 0 ids.length
            { rb with readIndex := rb.readIndex + ids.length } ids prices qtys
          with - | quad
        · rw [hw] at hstep; exact absurd hstep (by simp)
        · obtain ⟨rb2, a2, b2, c2⟩ := quad
          rw [hw] at hstep
          simp only [Option.some.injEq, Prod.mk.injEq] at hstep
          obtain ⟨hrb, -⟩ := hstep
          subst hrb
          have hcapk : rb.capacity = 2 ^ k := hcap
          have hnc : ids.length ≤ rb.capacity := by omega
          have hmask2 : rb.mask = 2 ^ k - 1 := by rw [hA.mask_eq, hcapk]
          have hconv : deqReadFrom rb.readIndex rb.capacity rb.mask 0 ids.length
              ({ rb with readIndex := rb.readIndex + ids.length }) ids prices qtys =
              deqReadFrom rb.readIndex rb.capacity (2 ^ k - 1) 0 ids.length
              ({ rb with readIndex := rb.readIndex + ids.length }) ids prices qtys := by
            rw [hmask2]
          rw [hconv] at hw
          have hsmall : ∀ j, j < ids.length →
              (rb.readIndex + j + 1) % U64 = rb.readIndex + j + 1 := by
            intro j hj
            apply mod_U64_of_lt
            have := hroom.2; have := U64_eq; omega
          obtain ⟨rb'', i2, p2, q2, hrun, hcap2, hmsk, hwi, hri, -, -, -, hunch,
              hwr, -, -, -, -, -⟩ :=
            deqReadFrom_spec hk64 rb.readIndex rb.capacity ids.length 0
              ({ rb with readIndex := rb.readIndex + ids.length }) ids prices qtys
              (fun j h1 h2 => by
                show rb.cycleState ((rb.readIndex + j) % 2 ^ k) =
                  (rb.readIndex + j + 1) % U64
                rw [hsmall j (by omega), ← hcapk,
                  cycle_at_A rb hA hcapk (by omega) (by omega), if_pos (by omega)])
              (fun j1 j2 h1 h2 h3 hcontra => by
                have := @eq_of_mod_eq_of_lt (2 ^ k) _ _ hcontra (by omega)
                  (by rw [← hcapk]; omega)
                omega)
              (fun j h1 h2 => by
                refine ⟨by omega, ?_, ?_⟩
                · exact (deqReadFrom_some_bounds ids.length 0 _ _ _ _ _ hw j h1
                    (by omega)).1
                · exact (deqReadFrom_some_bounds ids.length 0 _ _ _ _ _ hw j h1
                    (by omega)).2)
          rw [hrun] at hw
          simp only [Option.some.injEq, Prod.mk.injEq] at hw
          obtain ⟨hrb2, -, -, -⟩ := hw
          subst hrb2
          refine ⟨hcap2.trans hcap, fun h0 => absurd h0 hk, fun _ => ?_⟩
          have hsmall2 : ∀ j, j < ids.length →
              (rb.readIndex + j + rb.capacity) % U64 =
                rb.readIndex + j + rb.capacity := by
            intro j hj
            apply mod_U64_of_lt
            have := hroom.2; have := U64_eq; omega
          refine { mask_eq := by
                     rw [hmsk, hcap2]
                     show rb.mask = rb.capacity - 1
                     exact hA.mask_eq,
                   t_le_h := by
                     rw [hri, hwi]
                     show rb.readIndex + ids.length ≤ rb.writeIndex
                     omega,
                   occ := by
                     rw [hri, hwi, hcap2]
                     show rb.writeIndex ≤ rb.readIndex + ids.length + rb.capacity
                     omega,
                   cyc := ?_ }
          have hcyc2 : ∀ off, off < rb.capacity →
              rb''.cycleState off = seqCycle rb.capacity
                (rb.readIndex + ids.length) rb.writeIndex off := by
            apply seqCycle_bump_tail_batch (cap_pos hcap) hfit hocc hA.cyc
            · intro off hoffj
              refine (hunch off ?_).trans rfl
              intro j h1 h2
              rw [← hcapk]
              exact hoffj j (by omega)
            · intro j hj
              have hcy := hwr j (by omega) (by omega)
              rw [hcapk]
              rw [hcy]
              exact (hsmall2 j hj).trans (by rw [hcapk])
          intro off hoff
          rw [hcyc2 off (by rw [hcap2] at hoff; exact hoff)]
          rw [hcap2, hri, hwi]

/-! ## The reachability invariant -/

lemma Inv_Newbuffer {k : Nat} (hk63 : k ≤ 63) : Inv k (Newbuffer (2 ^ k)) := by
  have hcap0 : 0 < 2 ^ k := by positivity
  have hI : I64 = 2 ^ 63 := rfl
  have hle : (2 : Nat) ^ k ≤ 2 ^ 63 := Nat.pow_le_pow_right (by omega) hk63
  have hU := U64_eq
  have hIp := I64_pos
  refine ⟨rfl, fun hk0 => ?_, fun hk0 => ?_⟩
  · subst hk0
    refine { cap1 := rfl, mask_eq := ?_, t_le_h := le_refl 0, cyc := rfl }
    show (2 ^ 0 + U64 - 1) % U64 = 0
    have h1 : (2 : Nat) ^ 0 = 1 := rfl
    rw [show (2 : Nat) ^ 0 + U64 - 1 = U64 by omega, Nat.mod_self]
  · refine { mask_eq := ?_, t_le_h := le_refl 0, occ := Nat.zero_le _,
             cyc := fun off hoff => ?_ }
    · show (2 ^ k + U64 - 1) % U64 = 2 ^ k - 1
      rw [show (2 : Nat) ^ k + U64 - 1 = U64 + (2 ^ k - 1) by omega,
        Nat.add_mod_left, Nat.mod_eq_of_lt (by omega)]
    · have hoff2 : off < 2 ^ k := hoff
      show (if off < 2 ^ k then off else 0) = seqCycle (2 ^ k) 0 0 off
      rw [if_pos hoff2]
      unfold seqCycle
      rw [nextAt_unique hcap0 (Nat.zero_le off) (by omega) (Nat.mod_eq_of_lt hoff2)]
      rw [if_neg (by omega)]

/-- Every state reachable from a freshly constructed buffer of capacity
`2 ^ k` (the Go `uint64` capacity bounds `k` by 63) satisfies the
sequential invariant. -/
lemma Reach_Inv {k : Nat} (hk63 : k ≤ 63) :
    ∀ rb, Reach (2 ^ k) rb → Inv k rb := by
  intro rb h
  induction h with
  | init => exact Inv_Newbuffer hk63
  | enq _ _ _ _ _ _ _ hroom hstep ih => exact Inv_Enqueue ih hroom hstep
  | deq _ _ _ _ hroom hstep ih => exact Inv_Dequeue ih hroom hstep
  | enqBatch _ _ _ _ _ _ _ hroom hstep ih => exact Inv_EnqueueBatch ih hroom hstep
  | deqBatch _ _ _ _ _ _ _ _ _ _ hroom hstep ih => exact Inv_DequeueBatch ih hroom hstep

/-! ## Concrete observation programs used by the claims -/

/-- Construction with capacity 3: capacity and mask of the returned
buffer, the results of two enqueues, and the contents of slots 0 and 1
afterwards. -/
def obsC1 : Option (Nat × Nat × Bool × Bool × Nat × Nat) :=
  (Enqueue (Newbuffer 3) 1 100 1).bind fun p1 =>
  (Enqueue p1.1 2 100 1).bind fun p2 =>
  some ((Newbuffer 3).capacity, (Newbuffer 3).mask, p1.2, p2.2, p2.1.ids 0, p2.1.ids 1)

/-- Two enqueues on a capacity-one buffer: both results, then the head
cursor, tail cursor, and capacity of the final state. -/
def obsC3 : Option (Bool × Bool × Nat × Nat × Nat) :=
  (Enqueue (Newbuffer 1) 1 100 1).bind fun p1 =>
  (Enqueue p1.1 2 100 1).bind fun p2 =>
  some (p1.2, p2.2, p2.1.writeIndex, p2.1.readIndex, p2.1.capacity)

/-- Two enqueues on a capacity-one buffer followed by a one-record batch
dequeue: the observation is the batch-dequeue return count when the
operation returns at all (`none` is the infinite publication wait). -/
def obsC4 : Option (Option Nat) :=
  (Enqueue (Newbuffer 1) 1 100 1).bind fun p1 =>
  (Enqueue p1.1 2 100 1).bind fun p2 =>
  some ((DequeueBatch p2.1 [0] [0] [0]).map fun r => r.2.2.2.2)

/-- Scenario S1, enqueue phase: the final state and the five enqueue
results on a fresh capacity-four buffer. -/
def obsC6enq : Option (RingBuffer × List Bool) :=
  (Enqueue (Newbuffer 4) 1 100 1).bind fun p1 =>
  (Enqueue p1.1 2 100 1).bind fun p2 =>
  (Enqueue p2.1 3 100 1).bind fun p3 =>
  (Enqueue p3.1 4 100 1).bind fun p4 =>
  (Enqueue p4.1 5 100 1).bind fun p5 =>
  some (p5.1, [p1.2, p2.2, p3.2, p4.2, p5.2])

/-- Scenario S1 of the specification on a capacity-four buffer: five
enqueue results followed by the ids of five dequeues. -/
def obsC6 : Option (List Bool × List (Option Nat)) :=
  obsC6enq.bind fun pe =>
  (Dequeue pe.1).bind fun q1 =>
  (Dequeue q1.1).bind fun q2 =>
  (Dequeue q2.1).bind fun q3 =>
  (Dequeue q3.1).bind fun q4 =>
  (Dequeue q4.1).bind fun q5 =>
  some (pe.2, [q1.2.map (fun r => r.1), q2.2.map (fun r => r.1), q3.2.map (fun r => r.1),
               q4.2.map (fun r => r.1), q5.2.map (fun r => r.1)])

/-- One enqueue on a capacity-two buffer followed by a one-record batch
dequeue whose price and quantity output buffers are empty. -/
def obsC9 : Option (Option (RingBuffer × List Nat × List Rat × List Nat × Nat)) :=
  (Enqueue (Newbuffer 2) 5 100 1).bind fun p1 =>
  some (DequeueBatch p1.1 [0] [] [])

/-- C1: the claim says `Newbuffer` fails with `InvalidCapacity` on a
capacity that is zero or not a power of two.  The code performs no
validation at all: `Newbuffer 3` returns a buffer with `mask = 2`, both
enqueues report success, the second enqueue overwrites slot 0 (its id
becomes 2) and slot 1 is never written.  The construction neither fails
nor produces a correct buffer, so the code contradicts the specified
construction contract. -/
theorem C1_no_capacity_validation : obsC1 = some (3, 2, true, true, 2, 0) := by decide

/-- C6: scenario S1 — on a fresh capacity-four buffer the first four
enqueues succeed and the fifth fails; four dequeues then return ids
1, 2, 3, 4 in order and a fifth dequeue reports emptiness. -/
theorem C6_scenario_s1 :
    obsC6 = some ([true, true, true, true, false],
                  [some 1, some 2, some 3, some 4, none]) := by decide

/-- C3 counterexample: capacity 1 is a power of two, yet two single
enqueues from the fresh state both succeed and leave
`writeIndex = 2, readIndex = 0`, so `head − tail = 2` exceeds the
capacity: bounded occupancy fails on a power-of-two capacity buffer. -/
theorem C3_occupancy_violated_at_capacity_one :
    obsC3 = some (true, true, 2, 0, 1) ∧ ¬(2 - 0 ≤ 1) := by
  exact ⟨by decide, by decide⟩

/-- C4 counterexample: on a reachable capacity-one state holding two
records, a batch dequeue of one record (so `1 ≤ n ≤ capacity`) returns
neither `n` nor `0`: its inner publication wait spins forever, because
the slot cycle is already a full lap ahead of the value the loop waits
for.  In the embedding the operation is `none`. -/
theorem C4_batch_hangs_at_capacity_one : obsC4 = some none := by decide

/-- C2: from a fresh buffer of power-of-two capacity (any Go `uint64`
power of two is `2 ^ k` with `k ≤ 63`), construction sets
`head = tail = 0` and `cycleState[i] = i`, and after any sequence of
completed operations every slot `off` holds a cycle value of the form
`m * capacity + off` (empty at round `m`) or `m * capacity + off + 1`
(filled at round `m`). -/
theorem C2_slot_cycle_invariant {k : Nat} (hk : k ≤ 63) (rb : RingBuffer)
    (hreach : Reach (2 ^ k) rb) :
    ((Newbuffer (2 ^ k)).writeIndex = 0 ∧ (Newbuffer (2 ^ k)).readIndex = 0 ∧
      ∀ i, i < 2 ^ k → (Newbuffer (2 ^ k)).cycleState i = i) ∧
    ∀ off, off < rb.capacity → ∃ m,
      rb.cycleState off = m * rb.capacity + off ∨
      rb.cycleState off = m * rb.capacity + off + 1 := by
  refine ⟨⟨rfl, rfl, fun i hi => by simp [Newbuffer, hi]⟩, ?_⟩
  intro off hoff
  by_cases hk0 : k = 0
  · subst hk0
    have hcap : rb.capacity = 1 := (Reach_Inv hk rb hreach).1.trans (pow_zero 2)
    have hoff1 : off < 1 := hcap ▸ hoff
    refine ⟨rb.cycleState off, Or.inl ?_⟩
    rw [hcap]
    omega
  · obtain ⟨hcap, -, hAf⟩ := Reach_Inv hk rb hreach
    have hA := hAf hk0
    have hcap0 : 0 < rb.capacity := cap_pos hcap
    have hmod := nextAt_mod hcap0 hoff rb.readIndex
    have h1 : nextAt rb.capacity rb.readIndex off =
        (nextAt rb.capacity rb.readIndex off / rb.capacity) * rb.capacity + off := by
      have hdm := Nat.div_add_mod (nextAt rb.capacity rb.readIndex off) rb.capacity
      rw [hmod, Nat.mul_comm rb.capacity] at hdm
      exact hdm.symm
    rw [hA.cyc off hoff]
    refine ⟨nextAt rb.capacity rb.readIndex off / rb.capacity, ?_⟩
    unfold seqCycle
    split
    · exact Or.inr (by rw [← h1])
    · exact Or.inl (by rw [← h1])

/-- C2 witness at a concrete input: a fresh capacity-two buffer. -/
theorem C2_slot_cycle_invariant_witness :
    (((Newbuffer (2 ^ 1)).writeIndex = 0 ∧ (Newbuffer (2 ^ 1)).readIndex = 0 ∧
      ∀ i, i < 2 ^ 1 → (Newbuffer (2 ^ 1)).cycleState i = i) ∧
    ∀ off, off < (Newbuffer (2 ^ 1)).capacity → ∃ m,
      (Newbuffer (2 ^ 1)).cycleState off = m * (Newbuffer (2 ^ 1)).capacity + off ∨
      (Newbuffer (2 ^ 1)).cycleState off =
        m * (Newbuffer (2 ^ 1)).capacity + off + 1) :=
  C2_slot_cycle_invariant (by omega) (Newbuffer (2 ^ 1)) Reach.init

/-- C3 as amended: for a power-of-two capacity of at least two
(`k ≥ 1`), every reachable state satisfies `tail ≤ head` and
`head − tail ≤ capacity`. -/
theorem C3_bounded_occupancy {k : Nat} (hk : k ≤ 63) (hk1 : 1 ≤ k) (rb : RingBuffer)
    (hreach : Reach (2 ^ k) rb) :
    rb.readIndex ≤ rb.writeIndex ∧
    rb.writeIndex - rb.readIndex ≤ rb.capacity := by
  obtain ⟨hcap, -, hAf⟩ := Reach_Inv hk rb hreach
  have hA := hAf (by omega)
  have h1 := hA.t_le_h
  have h2 := hA.occ
  exact ⟨h1, by omega⟩

/-- C3 witness at a concrete input: a fresh capacity-two buffer. -/
theorem C3_bounded_occupancy_witness :
    (Newbuffer (2 ^ 1)).readIndex ≤ (Newbuffer (2 ^ 1)).writeIndex ∧
    (Newbuffer (2 ^ 1)).writeIndex - (Newbuffer (2 ^ 1)).readIndex ≤
      (Newbuffer (2 ^ 1)).capacity :=
  C3_bounded_occupancy (by omega) (by omega) (Newbuffer (2 ^ 1)) Reach.init

/-- C5: on every reachable state of a power-of-two-capacity buffer (the
cursors staying inside the no-wrap region), `Enqueue` returns `false`
and leaves the state unchanged exactly when the head slot cycle is
behind the head cursor, and otherwise returns `true` after advancing the
head by one, writing the three payload fields at offset `head & mask`
and publishing the cycle value `head + 1`. -/
theorem C5_enqueue_iff_not_full {k : Nat} (hk : k ≤ 63) (rb : RingBuffer)
    (hreach : Reach (2 ^ k) rb) (hroom : Room rb 1) (id : Nat) (price : Rat)
    (qty : Nat) :
    (rb.cycleState (rb.writeIndex &&& rb.mask) < rb.writeIndex →
      Enqueue rb id price qty = some (rb, false)) ∧
    (rb.writeIndex ≤ rb.cycleState (rb.writeIndex &&& rb.mask) →
      Enqueue rb id price qty = some
        ({ rb with
             writeIndex := rb.writeIndex + 1
             ids := Function.update rb.ids (rb.writeIndex &&& rb.mask) id
             prices := Function.update rb.prices (rb.writeIndex &&& rb.mask) price
             qtys := Function.update rb.qtys (rb.writeIndex &&& rb.mask) qty
             cycleState := Function.update rb.cycleState (rb.writeIndex &&& rb.mask)
               (rb.writeIndex + 1) }, true)) := by
  obtain ⟨hcap, hBf, hAf⟩ := Reach_Inv hk rb hreach
  by_cases hk0 : k = 0
  · have hB := hBf hk0
    have hoff : rb.writeIndex &&& rb.mask = 0 := by rw [hB.mask_eq, Nat.and_zero]
    rw [hoff, hB.cyc]
    exact ⟨fun hlt => absurd hlt (by omega),
      fun _ => Enqueue_B rb hB hroom id price qty⟩
  · have hA := hAf hk0
    have hcap2 : 2 ≤ rb.capacity := two_le_cap hcap hk0
    have hth := hA.t_le_h
    have hocc := hA.occ
    have hcap0 : 0 < rb.capacity := cap_pos hcap
    rw [offset_eq hA.mask_eq hcap]
    rcases Nat.lt_or_ge rb.writeIndex (rb.readIndex + rb.capacity) with hlt | hge
    · have hc0 : rb.cycleState (rb.writeIndex % rb.capacity) = rb.writeIndex := by
        rw [cycle_at_A rb hA hcap hth hlt]; simp
      rw [hc0]
      exact ⟨fun h2 => absurd h2 (by omega),
        fun _ => Enqueue_succ_A rb hA hcap hroom hlt id price qty⟩
    · have hfull : rb.writeIndex = rb.readIndex + rb.capacity := le_antisymm hocc hge
      have hoffm : rb.writeIndex % rb.capacity = rb.readIndex % rb.capacity := by
        rw [hfull, Nat.add_mod_right]
      have hc0 : rb.cycleState (rb.writeIndex % rb.capacity) = rb.readIndex + 1 := by
        rw [hoffm, cycle_at_A rb hA hcap (le_refl _) (by omega), if_pos (by omega)]
      rw [hc0]
      exact ⟨fun _ => Enqueue_full_A rb hA hcap hk0 hroom hfull id price qty,
        fun h2 => absurd h2 (by omega)⟩

/-- C5 witness at a concrete input: the fresh capacity-two buffer is not
full, so the success branch applies. -/
theorem C5_enqueue_iff_not_full_witness :
    Enqueue (Newbuffer (2 ^ 1)) 7 3 5 = some
      ({ Newbuffer (2 ^ 1) with
           writeIndex := (Newbuffer (2 ^ 1)).writeIndex + 1
           ids := Function.update (Newbuffer (2 ^ 1)).ids
             ((Newbuffer (2 ^ 1)).writeIndex &&& (Newbuffer (2 ^ 1)).mask) 7
           prices := Function.update (Newbuffer (2 ^ 1)).prices
             ((Newbuffer (2 ^ 1)).writeIndex &&& (Newbuffer (2 ^ 1)).mask) 3
           qtys := Function.update (Newbuffer (2 ^ 1)).qtys
             ((Newbuffer (2 ^ 1)).writeIndex &&& (Newbuffer (2 ^ 1)).mask) 5
           cycleState := Function.update (Newbuffer (2 ^ 1)).cycleState
             ((Newbuffer (2 ^ 1)).writeIndex &&& (Newbuffer (2 ^ 1)).mask)
             ((Newbuffer (2 ^ 1)).writeIndex + 1) }, true) :=
  (C5_enqueue_iff_not_full (by omega) (Newbuffer (2 ^ 1)) Reach.init
    (by constructor <;> decide) 7 3 5).2 (by decide)

/-- C7: on every reachable state whose buffer is empty — the tail slot
cycle is behind `tail + 1` — `Dequeue` reports emptiness without any
mutation, so a second consecutive `Dequeue` does the same; likewise
`DequeueBatch` returns `0` twice without any mutation. -/
theorem C7_idempotent_emptiness {k : Nat} (hk : k ≤ 63) (rb : RingBuffer)
    (hreach : Reach (2 ^ k) rb) (hroom1 : Room rb 1) (ids : List Nat)
    (prices : List Rat) (qtys : List Nat) (hroomn : Room rb ids.length)
    (hempty : rb.cycleState (rb.readIndex &&& rb.mask) < rb.readIndex + 1) :
    Dequeue rb = some (rb, none) ∧
    ((Dequeue rb).bind fun p => Dequeue p.1) = some (rb, none) ∧
    DequeueBatch rb ids prices qtys = some (rb, ids, prices, qtys, 0) ∧
    ((DequeueBatch rb ids prices qtys).bind fun p =>
      DequeueBatch p.1 ids prices qtys) = some (rb, ids, prices, qtys, 0) := by
  obtain ⟨hcap, hBf, hAf⟩ := Reach_Inv hk rb hreach
  have hd1 : Dequeue rb = some (rb, none) := by
    by_cases hk0 : k = 0
    · have hB := hBf hk0
      have hoff : rb.readIndex &&& rb.mask = 0 := by rw [hB.mask_eq, Nat.and_zero]
      rw [hoff, hB.cyc] at hempty
      have hth := hB.t_le_h
      exact Dequeue_empty_B rb hB hroom1 (by omega)
    · have hA := hAf hk0
      have hth := hA.t_le_h
      have hocc := hA.occ
      have hcap0 : 0 < rb.capacity := cap_pos hcap
      rw [offset_eq hA.mask_eq hcap,
        cycle_at_A rb hA hcap (le_refl _) (by omega)] at hempty
      have hempty2 : rb.readIndex = rb.writeIndex := by
        by_cases hlt : rb.readIndex < rb.writeIndex
        · rw [if_pos hlt] at hempty; omega
        · omega
      exact Dequeue_empty_A rb hA hcap hroom1 hempty2
  have hb1 : DequeueBatch rb ids prices qtys = some (rb, ids, prices, qtys, 0) := by
    rcases Nat.eq_zero_or_pos ids.length with h0 | hn
    · exact DequeueBatch_nil rb ids prices qtys h0
    · by_cases hk0 : k = 0
      · have hB := hBf hk0
        have hoff : rb.readIndex &&& rb.mask = 0 := by rw [hB.mask_eq, Nat.and_zero]
        rw [hoff, hB.cyc] at hempty
        exact DequeueBatch_ret0_B ids prices qtys hB hroomn hn (by omega)
      · have hA := hAf hk0
        have hth := hA.t_le_h
        have hocc := hA.occ
        have hcap0 : 0 < rb.capacity := cap_pos hcap
        rw [offset_eq hA.mask_eq hcap,
          cycle_at_A rb hA hcap (le_refl _) (by omega)] at hempty
        have hempty2 : rb.readIndex = rb.writeIndex := by
          by_cases hlt : rb.readIndex < rb.writeIndex
          · rw [if_pos hlt] at hempty; omega
          · omega
        exact DequeueBatch_ret0_A ids prices qtys hA hcap hroomn hn (by omega)
  refine ⟨hd1, ?_, hb1, ?_⟩
  · rw [hd1]
    simpa using hd1
  · rw [hb1]
    simpa using hb1

/-- C7 witness at a concrete input: a fresh capacity-two buffer is
empty. -/
theorem C7_idempotent_emptiness_witness :
    Dequeue (Newbuffer (2 ^ 1)) = some (Newbuffer (2 ^ 1), none) ∧
    ((Dequeue (Newbuffer (2 ^ 1))).bind fun p => Dequeue p.1) =
      some (Newbuffer (2 ^ 1), none) ∧
    DequeueBatch (Newbuffer (2 ^ 1)) [0] [0] [0] =
      some (Newbuffer (2 ^ 1), [0], [0], [0], 0) ∧
    ((DequeueBatch (Newbuffer (2 ^ 1)) [0] [0] [0]).bind fun p =>
      DequeueBatch p.1 [0] [0] [0]) = some (Newbuffer (2 ^ 1), [0], [0], [0], 0) :=
  C7_idempotent_emptiness (by omega) (Newbuffer (2 ^ 1)) Reach.init
    (by constructor <;> decide) [0] [0] [0] (by constructor <;> decide) (by decide)

/-- C8: on every reachable state, a batch enqueue of an empty record
sequence and a batch dequeue with an empty output buffer both return `0`
without touching the cursors, the cycle array or the payload arrays. -/
theorem C8_zero_length_batches {k : Nat} (hk : k ≤ 63) (rb : RingBuffer)
    (hreach : Reach (2 ^ k) rb) (hroom : Room rb 0) (prices : List Rat)
    (qtys : List Nat) (prices2 : List Rat) (qtys2 : List Nat) :
    EnqueueBatch rb [] prices qtys = some (rb, 0) ∧
    DequeueBatch rb [] prices2 qtys2 = some (rb, [], prices2, qtys2, 0) := by
  refine ⟨?_, DequeueBatch_nil rb [] prices2 qtys2 rfl⟩
  exact EnqueueBatch_nil [] prices qtys (Reach_Inv hk rb hreach) hroom rfl

/-- C8 witness at a concrete input: a fresh capacity-two buffer. -/
theorem C8_zero_length_batches_witness :
    EnqueueBatch (Newbuffer (2 ^ 1)) [] [5] [6] = some (Newbuffer (2 ^ 1), 0) ∧
    DequeueBatch (Newbuffer (2 ^ 1)) [] [7] [8] =
      some (Newbuffer (2 ^ 1), [], [7], [8], 0) :=
  C8_zero_length_batches (by omega) (Newbuffer (2 ^ 1)) Reach.init
    (by constructor <;> decide) [5] [6] [7] [8]

/-- C9: the batch operations take their transfer count from the length
of the `ids` argument alone.  With shorter `prices`/`qtys` the
out-of-bounds branch (a Go panic, `none` in the embedding) is reachable
after a successful reservation, for `EnqueueBatch` and for
`DequeueBatch`; with longer `prices`/`qtys` the extra entries are
ignored and the returned count is still the `ids` length. -/
theorem C9_batch_length_from_ids :
    EnqueueBatch (Newbuffer 2) [10, 11] [] [] = none ∧
    obsC9 = some none ∧
    (∀ prices : List Rat, ∀ qtys : List Nat, 2 ≤ prices.length → 2 ≤ qtys.length →
      (EnqueueBatch (Newbuffer 2) [10, 11] prices qtys).map (fun r => r.2) =
        some 2) := by
  refine ⟨rfl, rfl, ?_⟩
  intro prices qtys hp hq
  have h21 : (2 : Nat) ^ 1 = 2 := by norm_num
  have hI : Inv 1 (Newbuffer 2) := by
    have h := Inv_Newbuffer (k := 1) (by omega)
    rwa [h21] at h
  obtain ⟨hcap, -, hAf⟩ := hI
  have hA := hAf (by omega)
  have hroom : Room (Newbuffer 2) ([10, 11] : List Nat).length := by
    constructor <;> decide
  have hred := EnqueueBatch_reduce_A (k := 1) [10, 11] prices qtys hA hcap hroom
    (by decide) (by decide)
  rw [show (([10, 11] : List Nat)).length = 2 from rfl] at hred
  obtain ⟨rb2, hrun, -⟩ := enqWriteFrom_spec (k := 1) (by omega)
    (Newbuffer 2).writeIndex [10, 11] prices qtys 2 0
    ({ Newbuffer 2 with writeIndex := (Newbuffer 2).writeIndex + 2 })
    (by decide)
    (fun j hj1 hj2 => ⟨by simpa using hj2, by omega, by omega⟩)
    (fun j1 j2 hj1 hj2 hj3 => by
      have e1 : j1 = 0 := by omega
      have e2 : j2 = 1 := by omega
      subst e1; subst e2
      decide)
  rw [hred, hrun]
  simp

/-- C9 witness at a concrete input for its universally quantified part:
over-long price and quantity lists are ignored and the count is the
`ids` length. -/
theorem C9_batch_length_from_ids_witness :
    (EnqueueBatch (Newbuffer 2) [10, 11] [1, 2, 3] [4, 5, 6, 7]).map
      (fun r => r.2) = some 2 :=
  C9_batch_length_from_ids.2.2 [1, 2, 3] [4, 5, 6, 7] (by decide) (by decide)

/-- C4 as amended: on every reachable state of a buffer of power-of-two
capacity at least two, a batch of `n` records with `1 ≤ n ≤ capacity`
(all three argument lists of length `n`) is transferred all-or-nothing:
`EnqueueBatch` returns `n` after writing the `n` records to the
consecutive cursor positions `head … head+n−1` and publishing each slot
cycle, or returns `0` with the state unchanged; `DequeueBatch` returns
`n` after filling the output buffers with the records at cursor
positions `tail … tail+n−1` in cursor order, or returns `0` with the
state and the output buffers unchanged. -/
theorem C4_batch_atomicity {k : Nat} (hk : k ≤ 63) (hk1 : 1 ≤ k) (rb : RingBuffer)
    (hreach : Reach (2 ^ k) rb) (ids : List Nat) (prices : List Rat)
    (qtys : List Nat) {n : Nat} (hn : ids.length = n) (hp : prices.length = n)
    (hq : qtys.length = n) (h1 : 1 ≤ n) (hncap : n ≤ rb.capacity)
    (hroom : Room rb n) :
    ((∃ rb', EnqueueBatch rb ids prices qtys = some (rb', n) ∧
        rb'.writeIndex = rb.writeIndex + n ∧ rb'.readIndex = rb.readIndex ∧
        (∀ j, j < n →
          rb'.ids ((rb.writeIndex + j) % rb.capacity) = ids.getD j 0 ∧
          rb'.prices ((rb.writeIndex + j) % rb.capacity) = prices.getD j 0 ∧
          rb'.qtys ((rb.writeIndex + j) % rb.capacity) = qtys.getD j 0 ∧
          rb'.cycleState ((rb.writeIndex + j) % rb.capacity) =
            rb.writeIndex + j + 1)) ∨
      EnqueueBatch rb ids prices qtys = some (rb, 0)) ∧
    ((∃ rb' ids2 prices2 qtys2,
        DequeueBatch rb ids prices qtys = some (rb', ids2, prices2, qtys2, n) ∧
        rb'.readIndex = rb.readIndex + n ∧ rb'.writeIndex = rb.writeIndex ∧
        ids2.length = n ∧ prices2.length = n ∧ qtys2.length = n ∧
        (∀ j, j < n →
          ids2[j]? = some (rb.ids ((rb.readIndex + j) % rb.capacity)) ∧
          prices2[j]? = some (rb.prices ((rb.readIndex + j) % rb.capacity)) ∧
          qtys2[j]? = some (rb.qtys ((rb.readIndex + j) % rb.capacity)))) ∨
      DequeueBatch rb ids prices qtys = some (rb, ids, prices, qtys, 0)) := by
  subst hn
  obtain ⟨hcap, -, hAf⟩ := Reach_Inv hk rb hreach
  have hA := hAf (by omega)
  have hth := hA.t_le_h
  have hocc := hA.occ
  have hcap0 : 0 < rb.capacity := cap_pos hcap
  have hk64 : k ≤ 64 := k_le_64 hcap hroom
  have hmask : rb.mask = 2 ^ k - 1 := by rw [hA.mask_eq, hcap]
  have hcapk : rb.capacity = 2 ^ k := hcap
  have hdist : ∀ base j1 j2 : Nat, j1 < j2 → j2 < ids.length →
      (base + j1) % 2 ^ k ≠ (base + j2) % 2 ^ k := by
    intro base j1 j2 h2 h3 hcontra
    have := @eq_of_mod_eq_of_lt (2 ^ k) _ _ hcontra (by omega)
      (by rw [← hcapk]; omega)
    omega
  constructor
  · rcases le_or_lt (rb.writeIndex + ids.length) (rb.readIndex + rb.capacity)
      with hfit | hover
    · obtain ⟨rb2, hrun, hcap2, hmsk, hwi, hri, hunch, hwr⟩ :=
        enqWriteFrom_spec hk64 rb.writeIndex ids prices qtys ids.length 0
          ({ rb with writeIndex := rb.writeIndex + ids.length })
          hmask (fun j hj1 hj2 => by omega)
          (fun j1 j2 hj1 hj2 hj3 => hdist rb.writeIndex j1 j2 hj2 (by omega))
      refine Or.inl ⟨rb2, ?_, ?_, hri, ?_⟩
      · rw [EnqueueBatch_reduce_A ids prices qtys hA hcap hroom h1 hfit, hrun]
      · exact hwi
      · intro j hj
        obtain ⟨hcy, hid, hpr, hqt⟩ := hwr j (by omega) (by omega)
        rw [hcapk]
        refine ⟨hid, hpr, hqt, ?_⟩
        rw [hcy]
        apply mod_U64_of_lt
        have := hroom.1
        have := U64_eq
        omega
    · exact Or.inr (EnqueueBatch_ret0_A ids prices qtys hA hcap (by omega) hroom h1
        (by omega))
  · rcases le_or_lt (rb.readIndex + ids.length) rb.writeIndex with hfit | hunder
    · have hchk : ∀ j, 0 ≤ j → j < 0 + ids.length →
          ({ rb with readIndex := rb.readIndex + ids.length } : RingBuffer).cycleState
            ((rb.readIndex + j) % 2 ^ k) = (rb.readIndex + j + 1) % U64 := by
        intro j hj1 hj2
        show rb.cycleState ((rb.readIndex + j) % 2 ^ k) = (rb.readIndex + j + 1) % U64
        rw [mod_U64_of_lt (by
          have := hroom.2
          have := U64_eq
          omega), ← hcapk, cycle_at_A rb hA hcapk (by omega) (by omega),
          if_pos (by omega)]
      obtain ⟨rb2, ids2, prices2, qtys2, hrun, hcap2, hmsk, hwi, hri, hids, hprs,
          hqts, hunch, hwr, hlen1, hlen2, hlen3, hout, hkeep⟩ :=
        deqReadFrom_spec hk64 rb.readIndex rb.capacity ids.length 0
          ({ rb with readIndex := rb.readIndex + ids.length }) ids prices qtys
          hchk (fun j1 j2 hj1 hj2 hj3 => hdist rb.readIndex j1 j2 hj2 (by omega))
          (fun j hj1 hj2 => ⟨by omega, by omega, by omega⟩)
      have hconv : deqReadFrom rb.readIndex rb.capacity rb.mask 0 ids.length
          ({ rb with readIndex := rb.readIndex + ids.length }) ids prices qtys =
          deqReadFrom rb.readIndex rb.capacity (2 ^ k - 1) 0 ids.length
          ({ rb with readIndex := rb.readIndex + ids.length }) ids prices qtys := by
        rw [hmask]
      refine Or.inl ⟨rb2, ids2, prices2, qtys2, ?_, ?_, hwi, hlen1.trans rfl,
        hlen2.trans hp, hlen3.trans hq, ?_⟩
      · rw [DequeueBatch_reduce_A ids prices qtys hA hcap hroom h1 hfit, hconv, hrun]
      · exact hri
      · intro j hj
        obtain ⟨ho1, ho2, ho3⟩ := hout j (by omega) (by omega)
        rw [hcapk]
        exact ⟨ho1, ho2, ho3⟩
    · exact Or.inr (DequeueBatch_ret0_A ids prices qtys hA hcap hroom h1 hunder)

/-- C4 witness at a concrete input: a one-record batch on a fresh
capacity-two buffer. -/
theorem C4_batch_atomicity_witness :
    ((∃ rb', EnqueueBatch (Newbuffer (2 ^ 1)) [5] [9] [3] = some (rb', 1) ∧
        rb'.writeIndex = (Newbuffer (2 ^ 1)).writeIndex + 1 ∧
        rb'.readIndex = (Newbuffer (2 ^ 1)).readIndex ∧
        (∀ j, j < 1 →
          rb'.ids (((Newbuffer (2 ^ 1)).writeIndex + j) %
            (Newbuffer (2 ^ 1)).capacity) = ([5] : List Nat).getD j 0 ∧
          rb'.prices (((Newbuffer (2 ^ 1)).writeIndex + j) %
            (Newbuffer (2 ^ 1)).capacity) = ([9] : List Rat).getD j 0 ∧
          rb'.qtys (((Newbuffer (2 ^ 1)).writeIndex + j) %
            (Newbuffer (2 ^ 1)).capacity) = ([3] : List Nat).getD j 0 ∧
          rb'.cycleState (((Newbuffer (2 ^ 1)).writeIndex + j) %
            (Newbuffer (2 ^ 1)).capacity) = (Newbuffer (2 ^ 1)).writeIndex + j + 1)) ∨
      EnqueueBatch (Newbuffer (2 ^ 1)) [5] [9] [3] = some (Newbuffer (2 ^ 1), 0)) ∧
    ((∃ rb' ids2 prices2 qtys2,
        DequeueBatch (Newbuffer (2 ^ 1)) [5] [9] [3] =
          some (rb', ids2, prices2, qtys2, 1) ∧
        rb'.readIndex = (Newbuffer (2 ^ 1)).readIndex + 1 ∧
        rb'.writeIndex = (Newbuffer (2 ^ 1)).writeIndex ∧
        ids2.length = 1 ∧ prices2.length = 1 ∧ qtys2.length = 1 ∧
        (∀ j, j < 1 →
          ids2[j]? = some ((Newbuffer (2 ^ 1)).ids
            (((Newbuffer (2 ^ 1)).readIndex + j) % (Newbuffer (2 ^ 1)).capacity)) ∧
          prices2[j]? = some ((Newbuffer (2 ^ 1)).prices
            (((Newbuffer (2 ^ 1)).readIndex + j) % (Newbuffer (2 ^ 1)).capacity)) ∧
          qtys2[j]? = some ((Newbuffer (2 ^ 1)).qtys
            (((Newbuffer (2 ^ 1)).readIndex + j) % (Newbuffer (2 ^ 1)).capacity)))) ∨
      DequeueBatch (Newbuffer (2 ^ 1)) [5] [9] [3] =
        some (Newbuffer (2 ^ 1), [5], [9], [3], 0)) :=
  C4_batch_atomicity (by omega) (by omega) (Newbuffer (2 ^ 1)) Reach.init
    [5] [9] [3] (show (([5] : List Nat)).length = 1 from rfl)
    (show (([9] : List Rat)).length = 1 from rfl)
    (show (([3] : List Nat)).length = 1 from rfl)
    (by omega) (by decide) (by constructor <;> decide)

end MCMP
